import Mathlib

/-!
Shallow embedding of the incremental Notion-to-markdown mirroring engine
(`notion-backup.js` and `src/utils.js`) and proofs about its claims.

JavaScript strings are modelled as Lean `String` (lists of characters),
JavaScript objects/Maps as association lists preserving insertion order,
the filesystem as the list of existing path names, and network / clock
effects as explicit oracle functions.  Fallible operations return
`Option` / `Except`.
-/

set_option autoImplicit false
set_option linter.unusedVariables false

namespace NotionBackup

/-! ## Retry wrapper (`src/utils.js`, `callWithRetry`) -/

/-- A Notion API error as consumed by `callWithRetry`: the `code` string
property and the numeric `status` property, each possibly absent. -/
structure NotionError where
  code : Option String
  status : Option Nat
  deriving Repr, DecidableEq

/-- Classification used in `callWithRetry`: rate limits, conflicts and any
5xx status are retryable (`error.code === 'conflict_error' ||
error.code === 'rate_limited' || (error.status && error.status >= 500)`).
A missing or zero status is falsy in JavaScript and never retryable by the
status test. -/
def isRetryable (err : NotionError) : Bool :=
  err.code == some "conflict_error" || err.code == some "rate_limited" ||
    (match err.status with
     | some s => decide (s ≠ 0) && decide (s ≥ 500)
     | none => false)

/-- The body of the `while (attempt < retries)` loop of `callWithRetry`.
`op i` is the outcome of the `i`-th call of `apiCall` (the JavaScript
closure can behave differently on each call, so outcomes are indexed by the
attempt counter).  Falling out of the loop (possible only when
`retries = 0`) returns JavaScript `undefined`, modelled as `Except.ok none`. -/
def callWithRetryGo {α : Type} (op : Nat → Except NotionError α)
    (retries : Nat) (attempt : Nat) : Except NotionError (Option α) :=
  if h : attempt < retries then
    match op attempt with
    | Except.ok v => Except.ok (some v)
    | Except.error err =>
      if isRetryable err then
        if attempt + 1 ≥ retries then Except.error err
        else callWithRetryGo op retries (attempt + 1)
      else Except.error err
  else
    Except.ok none
  termination_by retries - attempt
  decreasing_by omega

/-- `callWithRetry(apiCall, retries = 5)` from `src/utils.js`. -/
def callWithRetry {α : Type} (op : Nat → Except NotionError α)
    (retries : Nat := 5) : Except NotionError (Option α) :=
  callWithRetryGo op retries 0

/-! ## Character and string helpers (JavaScript regexes and string methods) -/

/-- The character class of the JavaScript regex `\s`, restricted to the
ASCII whitespace characters (space, tab, line feed, vertical tab, form
feed, carriage return). -/
def isWsChar (c : Char) : Bool :=
  c == ' ' || c == '\t' || c == '\n' || c == '\x0b' || c == '\x0c' || c == '\r'

/-- The characters removed by `generateSafeFilename`:
the regex class in `/[<>:"\/\\|?*]/g`. -/
def isInvalidFilenameChar (c : Char) : Bool :=
  c == '<' || c == '>' || c == ':' || c == '"' || c == '/' || c == '\\' ||
    c == '|' || c == '?' || c == '*'

/-- One pass of `.replace(/\s+/g, ' ')`: every maximal run of whitespace
characters becomes a single space (the run is consumed left to right, the
space being emitted at the end of the run). -/
def collapseWs : List Char → List Char
  | [] => []
  | [c] => if isWsChar c then [' '] else [c]
  | c1 :: c2 :: rest =>
    if isWsChar c1 && isWsChar c2 then collapseWs (c2 :: rest)
    else (if isWsChar c1 then ' ' else c1) :: collapseWs (c2 :: rest)

/-- JavaScript `String.prototype.trim`: strip whitespace from both ends. -/
def trimWs (l : List Char) : List Char :=
  ((l.dropWhile isWsChar).reverse.dropWhile isWsChar).reverse

/-- No two adjacent characters are both whitespace (the collapsed-runs
property, stated executably). -/
def noAdjacentWs : List Char → Bool
  | [] => true
  | [_] => true
  | c1 :: c2 :: rest => !(isWsChar c1 && isWsChar c2) && noAdjacentWs (c2 :: rest)

/-- The first character, if any, is not whitespace. -/
def headNotWs (l : List Char) : Bool :=
  match l.head? with
  | some c => !isWsChar c
  | none => true

/-- The last character, if any, is not whitespace. -/
def lastNotWs (l : List Char) : Bool :=
  match l.getLast? with
  | some c => !isWsChar c
  | none => true

/-- Lower-case an ASCII letter, identity otherwise (for the `i` regex flag). -/
def lowerAscii (c : Char) : Char :=
  if 'A' ≤ c ∧ c ≤ 'Z' then Char.ofNat (c.toNat + 32) else c

/-- The regex `/\.(jpg|jpeg|png|gif|webp)$/i` used to pick out image files
in the attachment pool. -/
def isImageFile (name : String) : Bool :=
  [".jpg", ".jpeg", ".png", ".gif", ".webp"].any fun suf =>
    suf.data.isSuffixOf (name.data.map lowerAscii)

/-- Fuel-indexed decimal digits (structural recursion so that concrete
names evaluate; the fuel is irrelevant once at least the number itself). -/
def natToDecAux : Nat → Nat → List Char
  | 0, n =>
    if n < 10 then [Char.ofNat (48 + n)] else [Char.ofNat (48 + n % 10)]
  | fuel + 1, n =>
    if n < 10 then [Char.ofNat (48 + n)]
    else natToDecAux fuel (n / 10) ++ [Char.ofNat (48 + n % 10)]

/-- Decimal digits of a natural number, as produced by JavaScript
`String(n)` (and by the `padStart` input in the image name). -/
def natToDec (n : Nat) : List Char :=
  natToDecAux n n

/-- Decoder of decimal digit lists, used to show `natToDec` is injective. -/
def decVal (l : List Char) : Nat :=
  l.foldl (fun a c => a * 10 + (c.toNat - 48)) 0

/-- `String(counter).padStart(4, '0')`. -/
def padCounter (n : Nat) : List Char :=
  List.replicate (4 - (natToDec n).length) '0' ++ natToDec n

/-- The synthesized attachment file name
`image_<timestamp>_<counter padded to 4>.<ext>` from the image case of
`blocksToMarkdown`. -/
def mkImageName (timestamp counter : Nat) (ext : List Char) : String :=
  String.mk (("image_".data ++ natToDec timestamp) ++ ('_' :: padCounter counter) ++ ext)

/-- The suffix of `l` after its last occurrence of `sep` (all of `l` when
`sep` does not occur). -/
def afterLast (sep : Char) (l : List Char) : List Char :=
  (l.reverse.takeWhile (fun c => c ≠ sep)).reverse

/-- Node `path.extname` on a path: the part of the basename from its last
dot, empty when the basename has no dot or only a leading dot. -/
def extnameData (p : List Char) : List Char :=
  match afterLast '/' p with
  | [] => []
  | _b0 :: rest =>
    if '.' ∈ rest then '.' :: afterLast '.' rest else []

/-- The characters after the first occurrence of the scheme separator
`://`, or `none` when there is none. -/
def afterSchemeSep : List Char → Option (List Char)
  | ':' :: '/' :: '/' :: rest => some rest
  | _ :: rest => afterSchemeSep rest
  | [] => none

/-- The `pathname` of `new URL(url)`: the part after the scheme separator
and the host, cut at the query or fragment; `none` when the string has no
scheme separator (`new URL` throws). -/
def urlPathname (url : String) : Option (List Char) :=
  match afterSchemeSep url.data with
  | none => none
  | some afterScheme =>
    some ((afterScheme.dropWhile (fun c => c ≠ '/')).takeWhile
      (fun c => c ≠ '?' ∧ c ≠ '#'))

/-- The image extension chosen in the image case of `blocksToMarkdown`:
`path.extname(new URL(url).pathname)`, falling back to `.jpg` when the URL
does not parse or yields no extension. -/
def imageExtensionOf (url : String) : List Char :=
  match urlPathname url with
  | none => ".jpg".data
  | some p =>
    let ext := extnameData p
    if ext = [] then ".jpg".data else ext

/-! ## Data model: pages, sync records, backup state -/

/-- First-match lookup in an association list (a JavaScript object or
`Map` read). -/
def lookupA {α : Type} (l : List (String × α)) (k : String) : Option α :=
  match l with
  | [] => none
  | (k0, v0) :: rest => if k0 = k then some v0 else lookupA rest k

/-- JavaScript property assignment `obj[k] = v` on an object modelled as an
insertion-ordered association list: overwrite in place when the key is
present, append otherwise. -/
def setA {α : Type} (l : List (String × α)) (k : String) (v : α) :
    List (String × α) :=
  if (lookupA l k).isSome then
    l.map fun p => if p.1 = k then (k, v) else p
  else l ++ [(k, v)]

/-- A `SyncRecord`: the per-page entry of `.backup-state.json`
(`{ lastModified, filePath, title }`).  `filePath` and `title` are `Option`
because JavaScript may store `undefined` there; the empty string is falsy
like `undefined`. -/
structure PageInfo where
  lastModified : String
  filePath : Option String
  title : Option String
  deriving Repr, DecidableEq

/-- Truthiness of an optional string property (JavaScript `if (x)`). -/
def optTruthy (o : Option String) : Bool :=
  match o with
  | some s => s ≠ ""
  | none => false

/-- The fields of a Notion page object read by the backup:
`page.id`, `page.last_edited_time`, the `Name` title property and the
`Created Date` property. -/
structure PageObj where
  id : String
  last_edited_time : String
  name : Option String
  createdDate : Option String
  deriving Repr, DecidableEq

/-- The in-memory backup state `{ lastBackup, pages }`. -/
structure BackupState where
  lastBackup : Option String
  pages : List (String × PageInfo)
  deriving Repr, DecidableEq

/-! ## Export decision (`needsUpdate`) and run initialization -/

/-- `pageHasMissingImages` from `notion-backup.js`: reads the attachment
directory (`rd`, `none` when `readdir` throws) and returns `false` on every
path (the body is a placeholder: empty image list returns `false`, the
remaining branch also returns `false`, and errors return `false`). -/
def pageHasMissingImages (rd : Option (List String)) : Bool :=
  match rd with
  | none => false
  | some files =>
    if (files.filter isImageFile).isEmpty then false else false

/-- `needsUpdate(page, backupState, forceImageRedownload)`.
`fs` is the set of existing local files (for `fs.access`), `rd` the result
of reading the attachment directory (consumed by `pageHasMissingImages`). -/
def needsUpdate (fs : List String) (rd : Option (List String)) (page : PageObj)
    (backupState : BackupState) (force : Bool) : Bool :=
  match lookupA backupState.pages page.id with
  | none => true
  | some info =>
    if force then true
    else
      let timeChanged : Bool := page.last_edited_time ≠ info.lastModified
      if !timeChanged && optTruthy info.filePath then
        match info.filePath with
        | some p =>
          if fs.contains p then
            -- file exists; the inner `if (!forceImageRedownload)` guard is
            -- true here (we are in the non-forced branch)
            if pageHasMissingImages rd then true else false
          else true
        | none => timeChanged
      else timeChanged

/-- The computation of `forceImageRedownload` in `runBackup`: `true` when
reading the attachment directory fails or it contains no image files. -/
def computeForce (rd : Option (List String)) : Bool :=
  match rd with
  | none => true
  | some files => (files.filter isImageFile).isEmpty

/-- Spec-side restatement of claim C1: the export decision checked in the
claimed order — no record, then the force flag, then a marker difference,
then a recorded-but-missing local file; otherwise skip.  (A file is
recorded when the stored `filePath` is a non-empty string.) -/
def needsUpdateSpec (fs : List String) (page : PageObj)
    (backupState : BackupState) (force : Bool) : Bool :=
  match lookupA backupState.pages page.id with
  | none => true
  | some info =>
    if force then true
    else if page.last_edited_time ≠ info.lastModified then true
    else if optTruthy info.filePath &&
        !(fs.contains (info.filePath.getD "")) then true
    else false

/-! ## Filename sanitization (`generateSafeFilename`) -/

/-- The sanitization pipeline of `generateSafeFilename` before the length
cap: strip invalid characters, collapse whitespace, trim. -/
def sanitizedTitle (t : String) : List Char :=
  trimWs (collapseWs (t.data.filter fun c => !isInvalidFilenameChar c))

/-- `generateSafeFilename(title)`: falsy titles (absent or empty) become
`untitled`; otherwise invalid filename characters are removed, whitespace
runs are collapsed to single spaces, the ends are trimmed, and the result
is truncated to 200 characters. -/
def generateSafeFilename (title : Option String) : String :=
  match title with
  | none => "untitled"
  | some t =>
    if t = "" then "untitled"
    else String.mk ((sanitizedTitle t).take 200)

/-! ## Attachment materialization (the image case of `blocksToMarkdown`) -/

/-- The run-local state threaded through block conversion: the
`downloadedImages` cache (origin URL to file name, insertion order), the
global `imageContext.counter`, the files present in the attachment pool,
plus two effect traces: `log` records every download attempt
(URL, success) and `refs` records the markdown emitted for every image
reference that carried a URL. -/
structure ImgState where
  cache : List (String × String)
  counter : Nat
  fsA : List String
  attempt : Nat
  log : List (String × Bool)
  refs : List (String × String)
  deriving Repr, DecidableEq

/-- The markdown emitted for a materialized attachment:
`![name](Attachments/name)` followed by a blank line. -/
def okMd (name : String) : String :=
  "![" ++ name ++ "](Attachments/" ++ name ++ ")\n\n"

/-- The markdown emitted when a download fails:
`![Image failed to download](url)`. -/
def failMd (url : String) : String :=
  "![Image failed to download](" ++ url ++ ")\n\n"

/-- The image case of `blocksToMarkdown`.  `net i` tells whether the
`i`-th download attempt of the run succeeds, `time i` is `Date.now()` at
that attempt.  `url` is the resolved `block.image` URL (`none` when the
block has no usable URL).  Returns the updated state and the emitted
markdown.  A failed download still leaves a (partial) file behind because
`createWriteStream` creates it up front. -/
def processImage (net : Nat → Bool) (time : Nat → Nat) (s : ImgState)
    (url : Option String) : ImgState × String :=
  match url with
  | none => (s, "")
  | some u =>
    match lookupA s.cache u with
    | none =>
      let ext := imageExtensionOf u
      let name := mkImageName (time s.attempt) s.counter ext
      let ok := net s.attempt
      if ok then
        let md := okMd name
        ({ s with
            cache := s.cache ++ [(u, name)]
            counter := s.counter + 1
            fsA := name :: s.fsA
            attempt := s.attempt + 1
            log := s.log ++ [(u, true)]
            refs := s.refs ++ [(u, md)] }, md)
      else
        let md := failMd u
        ({ s with
            fsA := name :: s.fsA
            attempt := s.attempt + 1
            log := s.log ++ [(u, false)]
            refs := s.refs ++ [(u, md)] }, md)
    | some name =>
      if s.fsA.contains name then
        let md := okMd name
        ({ s with refs := s.refs ++ [(u, md)] }, md)
      else
        -- cached name whose file disappeared: re-download to the same name
        let ok := net s.attempt
        if ok then
          let md := okMd name
          ({ s with
              fsA := name :: s.fsA
              attempt := s.attempt + 1
              log := s.log ++ [(u, true)]
              refs := s.refs ++ [(u, md)] }, md)
        else
          let md := failMd u
          ({ s with
              fsA := name :: s.fsA
              attempt := s.attempt + 1
              log := s.log ++ [(u, false)]
              refs := s.refs ++ [(u, md)] }, md)

/-- The number of successful download attempts of a given origin URL
recorded in the download trace. -/
def countSucc (u : String) (log : List (String × Bool)) : Nat :=
  (log.filter fun e => e.1 == u && e.2).length

/-- The run invariant of the image state: every cached name was synthesized
from a counter below the current one with a dot-led extension; cached names
are pairwise distinct; every cached name is a file of the pool; a URL not
in the cache has no successful download yet; every URL has at most one
successful download; and every emitted image reference is either the
failure markdown or the success markdown of the cached name of its URL. -/
def CacheInv (s : ImgState) : Prop :=
  (∀ p ∈ s.cache, ∃ t c e tl, c < s.counter ∧ e = '.' :: tl ∧
    p.2 = mkImageName t c e) ∧
  List.Pairwise (fun p q => p.2 ≠ q.2) s.cache ∧
  (∀ p ∈ s.cache, s.fsA.contains p.2 = true) ∧
  (∀ u, lookupA s.cache u = none → countSucc u s.log = 0) ∧
  (∀ u, countSucc u s.log ≤ 1) ∧
  (∀ u md, (u, md) ∈ s.refs →
    md = failMd u ∨ ∃ n, lookupA s.cache u = some n ∧ md = okMd n)

/-- One image state evolves into another: cached resolutions stay valid,
pool files stay present, and the run invariant is preserved. -/
def Evolves (s s2 : ImgState) : Prop :=
  (∀ u n, lookupA s.cache u = some n → lookupA s2.cache u = some n) ∧
  (∀ q, s.fsA.contains q = true → s2.fsA.contains q = true) ∧
  (CacheInv s → CacheInv s2)

/-! ## Blocks and block-to-markdown conversion (`blocksToMarkdown`) -/

/-- One element of a `rich_text` array: the plain text, the annotation
flags read by the paragraph case, and the link `href`. -/
structure RichText where
  plain_text : String
  bold : Bool
  italic : Bool
  code : Bool
  strikethrough : Bool
  href : Option String
  deriving Repr, DecidableEq

/-- The paragraph-case rendering of one rich-text element: bold, italic,
code and strikethrough wrappers applied in that order, then the link. -/
def richTextMd (rt : RichText) : String :=
  let t0 := rt.plain_text
  let t1 := if rt.bold then "**" ++ t0 ++ "**" else t0
  let t2 := if rt.italic then "*" ++ t1 ++ "*" else t1
  let t3 := if rt.code then "`" ++ t2 ++ "`" else t2
  let t4 := if rt.strikethrough then "~~" ++ t3 ++ "~~" else t3
  match rt.href with
  | some href => "[" ++ t4 ++ "](" ++ href ++ ")"
  | none => t4

/-- `rich_text.map(rt => rt.plain_text).join('')`. -/
def plainJoin (l : List RichText) : String :=
  String.join (l.map fun rt => rt.plain_text)

/-- The non-recursive payload of a block, one constructor per `case` of the
`switch (block.type)` dispatch; `unsupported` carries the raw type tag of
the `default` case (`none` models an absent tag). -/
inductive BlockData where
  | paragraph (rich : List RichText)
  | heading1 (rich : List RichText)
  | heading2 (rich : List RichText)
  | heading3 (rich : List RichText)
  | bulleted (rich : List RichText)
  | numbered (rich : List RichText)
  | todo (rich : List RichText) (checked : Bool)
  | quote (rich : List RichText)
  | codeBlock (rich : List RichText) (language : Option String)
  | divider
  | image (url : Option String)
  | embed (url : Option String)
  | bookmark (url : Option String)
  | table
  | unsupported (ty : Option String)
  deriving Repr, DecidableEq

/-- A block: its payload and its children.  `kids = none` models
`has_children: false`; `some none` models a child fetch that throws;
`some (some l)` models a successful child fetch returning `l`. -/
inductive Block where
  | mk (data : BlockData) (kids : Option (Option (List Block)))

/-- The `switch` of `blocksToMarkdown` on one block payload: returns the
updated image state and the markdown appended for the block itself. -/
def convData (net : Nat → Bool) (time : Nat → Nat) (s : ImgState) :
    BlockData → ImgState × String
  | BlockData.paragraph rich =>
    (s, String.join (rich.map richTextMd) ++ "\n\n")
  | BlockData.heading1 rich => (s, "# " ++ plainJoin rich ++ "\n\n")
  | BlockData.heading2 rich => (s, "## " ++ plainJoin rich ++ "\n\n")
  | BlockData.heading3 rich => (s, "### " ++ plainJoin rich ++ "\n\n")
  | BlockData.bulleted rich => (s, "- " ++ plainJoin rich ++ "\n")
  | BlockData.numbered rich => (s, "1. " ++ plainJoin rich ++ "\n")
  | BlockData.todo rich checked =>
    (s, "- [" ++ (if checked then "x" else " ") ++ "] " ++ plainJoin rich ++ "\n")
  | BlockData.quote rich => (s, "> " ++ plainJoin rich ++ "\n\n")
  | BlockData.codeBlock rich language =>
    (s, "```" ++ language.getD "" ++ "\n" ++ plainJoin rich ++ "\n```\n\n")
  | BlockData.divider => (s, "---\n\n")
  | BlockData.image url => processImage net time s url
  | BlockData.embed url =>
    (s, if optTruthy url then "[Embedded content](" ++ url.getD "" ++ ")\n\n" else "")
  | BlockData.bookmark url =>
    (s, if optTruthy url then "[Bookmark](" ++ url.getD "" ++ ")\n\n" else "")
  | BlockData.table =>
    (s, "<!-- Table block found - manual conversion may be needed -->\n\n")
  | BlockData.unsupported ty =>
    (s, if optTruthy ty then
        "<!-- Unsupported block type: " ++ ty.getD "" ++ " -->\n\n"
      else "")

/-- `blocksToMarkdown(blocks, downloadedImages, imageContext)`: convert the
blocks in order; after each block, recursively convert its children (a
failed child fetch is logged and contributes nothing) and append the child
markdown after the block's own text. -/
def convBlocks (net : Nat → Bool) (time : Nat → Nat) :
    ImgState → List Block → ImgState × String
  | s, [] => (s, "")
  | s, Block.mk d none :: bs =>
    let r1 := convData net time s d
    let r3 := convBlocks net time r1.1 bs
    (r3.1, r1.2 ++ r3.2)
  | s, Block.mk d (some none) :: bs =>
    -- child fetch throws: error logged, empty continuation for the subtree
    let r1 := convData net time s d
    let r3 := convBlocks net time r1.1 bs
    (r3.1, r1.2 ++ r3.2)
  | s, Block.mk d (some (some kbs)) :: bs =>
    let r1 := convData net time s d
    let r2 := convBlocks net time r1.1 kbs
    let r3 := convBlocks net time r2.1 bs
    (r3.1, r1.2 ++ r2.2 ++ r3.2)

/-- Conversion of a sequence of documents (their root block lists) within
one run, threading the shared image state across documents. -/
def convDocs (net : Nat → Bool) (time : Nat → Nat) :
    ImgState → List (List Block) → ImgState × List String
  | s, [] => (s, [])
  | s, doc :: docs =>
    let r := convBlocks net time s doc
    let rr := convDocs net time r.1 docs
    (rr.1, r.2 :: rr.2)

/-- The image-related initialization of `runBackup`: the attachment pool is
read only to compute `forceImageRedownload`; the `downloadedImages` cache
is created empty (`new Map()`) and the global counter starts at 1.  `rd` is
the `readdir` result (its files are the pool contents when readable). -/
def runInit (rd : Option (List String)) : ImgState × Bool :=
  (⟨[], 1, rd.getD [], 0, [], []⟩, computeForce rd)

/-! ## Per-page export (`exportPage`) and per-database loop -/

/-- `page.last_edited_time.split('T')[0]`. -/
def splitDateT (s : String) : String :=
  String.mk (s.data.takeWhile fun c => c ≠ 'T')

/-- The metadata header `exportPage` prepends to the converted blocks. -/
def headerOf (p : PageObj) (title : String) : String :=
  "# " ++ title ++ "\n\n" ++ "---\n" ++ "notion_id: " ++ p.id ++ "\n" ++
    (if optTruthy p.createdDate then "created: " ++ p.createdDate.getD "" ++ "\n" else "") ++
    (if p.last_edited_time ≠ "" then
      "modified: " ++ splitDateT p.last_edited_time ++ "\n" else "") ++
    "---\n\n"

/-- `exportPage`: decide with `needsUpdate`; on export, fetch the root
blocks (`fetch = none` models a throwing fetch), convert, write the file
(`writeOk = false` models a throwing write), and only then store the
updated `SyncRecord` under the page id.  Any failure is caught: the page
reports `false`, exactly like a skip, and the backup-state entry is left
as it was.  Returns (exported?, backup state, image state). -/
def exportPage (net : Nat → Bool) (time : Nat → Nat) (fs : List String)
    (rd : Option (List String)) (databaseDir : String) (p : PageObj)
    (fetch : Option (List Block)) (writeOk : Bool)
    (backupState : BackupState) (s : ImgState) (force : Bool) :
    Bool × BackupState × ImgState :=
  let title := if optTruthy p.name then p.name.getD "" else "Untitled"
  let safeTitle := generateSafeFilename (some title)
  let pageFilePath := databaseDir ++ "/" ++ safeTitle ++ ".md"
  if !(needsUpdate fs rd p backupState force) then (false, backupState, s)
  else
    match fetch with
    | none => (false, backupState, s)
    | some blocks =>
      let conv := convBlocks net time s blocks
      if writeOk then
        (true,
          { backupState with
              pages := setA backupState.pages p.id
                ⟨p.last_edited_time, some pageFilePath, some title⟩ },
          conv.1)
      else (false, backupState, conv.1)

/-- The per-database export loop of `exportDatabase`: each page (with the
outcome of its fetch and write effects) runs through `exportPage`; a `true`
result is tallied as exported, a `false` result as skipped.  Returns
((exported, skipped), backup state, image state). -/
def exportDatabase (net : Nat → Bool) (time : Nat → Nat) (fs : List String)
    (rd : Option (List String)) (databaseDir : String)
    (items : List (PageObj × Option (List Block) × Bool))
    (backupState : BackupState) (s : ImgState) (force : Bool) :
    (Nat × Nat) × BackupState × ImgState :=
  match items with
  | [] => ((0, 0), backupState, s)
  | (p, fetch, w) :: rest =>
    let r := exportPage net time fs rd databaseDir p fetch w backupState s force
    let rr := exportDatabase net time fs rd databaseDir rest r.2.1 r.2.2 force
    (if r.1 then (rr.1.1 + 1, rr.1.2) else (rr.1.1, rr.1.2 + 1), rr.2)

/-! ## Orphan reconciliation (`cleanupOrphanedFiles`) -/

/-- `cleanupOrphanedFiles(backupState, currentPageIds)` over the state
entries in insertion order and the list `fs` of existing files: an entry
whose id is still current is kept; an orphaned entry is removed, and when
its recorded file path is truthy and the file exists the file is unlinked
and the counter is incremented.  Returns (remaining entries, remaining
files, count). -/
def cleanupOrphanedFiles (pages : List (String × PageInfo))
    (currentPageIds : List String) (fs : List String) :
    List (String × PageInfo) × List String × Nat :=
  match pages with
  | [] => ([], fs, 0)
  | (pid, info) :: rest =>
    if currentPageIds.contains pid then
      let r := cleanupOrphanedFiles rest currentPageIds fs
      ((pid, info) :: r.1, r.2.1, r.2.2)
    else
      if optTruthy info.filePath && fs.contains (info.filePath.getD "") then
        let r := cleanupOrphanedFiles rest currentPageIds
          (fs.erase (info.filePath.getD ""))
        (r.1, r.2.1, r.2.2 + 1)
      else
        let r := cleanupOrphanedFiles rest currentPageIds fs
        (r.1, r.2.1, r.2.2)

/-- If the first `k` calls fail retryably and call `k` (with `attempt + k`
still below `retries`) succeeds, the loop returns that success. -/
theorem callWithRetryGo_success {α : Type} (op : Nat → Except NotionError α)
    (retries : Nat) :
    ∀ (k attempt : Nat) (v : α), attempt + k < retries →
    (∀ i, attempt ≤ i → i < attempt + k →
      ∃ err, op i = Except.error err ∧ isRetryable err = true) →
    op (attempt + k) = Except.ok v →
    callWithRetryGo op retries attempt = Except.ok (some v) := by
  intro k
  induction k with
  | zero =>
    intro attempt v hlt _ hok
    rw [callWithRetryGo, dif_pos (by omega : attempt < retries)]
    simp only [Nat.add_zero] at hok
    rw [hok]
  | succ n ih =>
    intro attempt v hlt hfail hok
    obtain ⟨err, herr, hretry⟩ := hfail attempt (Nat.le_refl _) (by omega)
    rw [callWithRetryGo, dif_pos (by omega : attempt < retries), herr]
    simp only [hretry, if_true]
    rw [if_neg (by omega : ¬ attempt + 1 ≥ retries)]
    have := ih (attempt + 1) v (by omega)
      (fun i h1 h2 => hfail i (by omega) (by omega))
      (by rw [show attempt + 1 + n = attempt + (n + 1) by omega]; exact hok)
    exact this

/-- If every remaining call fails retryably, the loop rethrows the error of
the final attempt (index `retries - 1`). -/
theorem callWithRetryGo_exhausted {α : Type} (op : Nat → Except NotionError α)
    (retries : Nat) (errAt : Nat → NotionError) :
    ∀ attempt : Nat, attempt < retries →
    (∀ i, attempt ≤ i → i < retries →
      op i = Except.error (errAt i) ∧ isRetryable (errAt i) = true) →
    callWithRetryGo op retries attempt = Except.error (errAt (retries - 1)) := by
  have H : ∀ (n attempt : Nat), retries - attempt = n → attempt < retries →
      (∀ i, attempt ≤ i → i < retries →
        op i = Except.error (errAt i) ∧ isRetryable (errAt i) = true) →
      callWithRetryGo op retries attempt = Except.error (errAt (retries - 1)) := by
    intro n
    induction n with
    | zero => intro attempt hn hlt _; omega
    | succ n ih =>
      intro attempt hn hlt hfail
      obtain ⟨herr, hretry⟩ := hfail attempt (Nat.le_refl _) hlt
      rw [callWithRetryGo, dif_pos hlt, herr]
      simp only [hretry, if_true]
      by_cases hlast : attempt + 1 ≥ retries
      · rw [if_pos hlast]
        have heq : attempt = retries - 1 := by omega
        rw [heq]
      · rw [if_neg hlast]
        exact ih (attempt + 1) (by omega) (by omega)
          (fun i h1 h2 => hfail i (by omega) h2)
  intro attempt hlt hfail
  exact H (retries - attempt) attempt rfl hlt hfail

/-- A non-retryable failure is rethrown at once, even after earlier
retryable failures. -/
theorem callWithRetryGo_fatal {α : Type} (op : Nat → Except NotionError α)
    (retries : Nat) :
    ∀ (k attempt : Nat) (err : NotionError), attempt + k < retries →
    (∀ i, attempt ≤ i → i < attempt + k →
      ∃ e, op i = Except.error e ∧ isRetryable e = true) →
    op (attempt + k) = Except.error err → isRetryable err = false →
    callWithRetryGo op retries attempt = Except.error err := by
  intro k
  induction k with
  | zero =>
    intro attempt err hlt _ herr hfatal
    rw [callWithRetryGo, dif_pos (by omega : attempt < retries)]
    simp only [Nat.add_zero] at herr
    rw [herr]
    simp [hfatal]
  | succ n ih =>
    intro attempt err hlt hfail herr hfatal
    obtain ⟨e, he, hretry⟩ := hfail attempt (Nat.le_refl _) (by omega)
    rw [callWithRetryGo, dif_pos (by omega : attempt < retries), he]
    simp only [hretry, if_true]
    rw [if_neg (by omega : ¬ attempt + 1 ≥ retries)]
    exact ih (attempt + 1) err (by omega)
      (fun i h1 h2 => hfail i (by omega) (by omega))
      (by rw [show attempt + 1 + n = attempt + (n + 1) by omega]; exact herr)
      hfatal

/-- The entries of the backup state whose file `cleanupOrphanedFiles`
deletes: orphaned, with a truthy recorded path that exists in `fs`. -/
def orphanDeleted (currentPageIds fs : List String)
    (x : String × PageInfo) : Bool :=
  !currentPageIds.contains x.1 && optTruthy x.2.filePath &&
    fs.contains (x.2.filePath.getD "")

/-- The truthy file paths of the orphaned entries, in order. -/
def orphanTruthyPaths (pages : List (String × PageInfo))
    (currentPageIds : List String) : List String :=
  (pages.filter fun x =>
    !currentPageIds.contains x.1 && optTruthy x.2.filePath).map
      fun x => x.2.filePath.getD ""

/-! ## Lemmas about the export decision -/

/-- The placeholder `pageHasMissingImages` returns `false` on every input. -/
theorem pageHasMissingImages_false (rd : Option (List String)) :
    pageHasMissingImages rd = false := by
  cases rd with
  | none => rfl
  | some files =>
    simp only [pageHasMissingImages]
    split <;> rfl

/-- C1: `needsUpdate` returns `true` exactly under the claimed ordered
conditions — no sync record, then the global force flag, then a changed
marker, then a recorded-but-missing local file — and otherwise `false`;
moreover the force flag is set whenever the attachment pool directory is
unreadable or empty. -/
theorem c1_needsUpdate_decision :
    (∀ (fs : List String) (rd : Option (List String)) (page : PageObj)
      (st : BackupState) (force : Bool),
      needsUpdate fs rd page st force = needsUpdateSpec fs page st force) ∧
    (∀ rd : Option (List String), rd = none ∨ rd = some [] →
      computeForce rd = true) := by
  constructor
  · intro fs rd page st force
    simp only [needsUpdate, needsUpdateSpec]
    cases h : lookupA st.pages page.id with
    | none => rfl
    | some info =>
      cases force with
      | true => simp
      | false =>
        simp only [if_neg (by simp : ¬ (false = true)), Bool.false_eq_true]
        by_cases ht : page.last_edited_time = info.lastModified
        · simp only [ht, pageHasMissingImages_false]
          cases hfp : info.filePath with
          | none => simp [optTruthy]
          | some p =>
            by_cases hp : p = ""
            · simp [optTruthy, hp]
            · by_cases hc : fs.contains p
              · simp [optTruthy, hp, hc]
              · simp [optTruthy, hp, hc]
        · cases hfp : info.filePath with
          | none => simp [optTruthy, ht]
          | some p => simp [optTruthy, ht]
  · intro rd h
    rcases h with h | h <;> subst h <;> rfl

/-- Witness for C1 at a concrete input: an unreadable attachment pool sets
the force flag, and with no sync record the decision is export. -/
theorem c1_needsUpdate_decision_witness :
    computeForce none = true ∧
      needsUpdate [] none ⟨"p", "T1", none, none⟩ ⟨none, []⟩ false =
        needsUpdateSpec [] ⟨"p", "T1", none, none⟩ ⟨none, []⟩ false :=
  ⟨c1_needsUpdate_decision.2 none (Or.inl rfl),
    c1_needsUpdate_decision.1 [] none ⟨"p", "T1", none, none⟩ ⟨none, []⟩ false⟩

/-! ## C3: the retry contract of `callWithRetry` -/

/-- C3: with `maxAttempts = 5`, an operation that fails retryably at most
four times and then succeeds returns the success; one that fails retryably
five times rethrows the final error; a non-retryable error (after any
number of initial retryable failures) is rethrown at once.  Attempt `i` of
the run is `op i`. -/
theorem c3_callWithRetry_contract {α : Type} (op : Nat → Except NotionError α) :
    (∀ (k : Nat) (v : α), k ≤ 4 →
      (∀ i, i < k → ∃ e, op i = Except.error e ∧ isRetryable e = true) →
      op k = Except.ok v → callWithRetry op 5 = Except.ok (some v)) ∧
    (∀ errAt : Nat → NotionError,
      (∀ i, i < 5 → op i = Except.error (errAt i) ∧ isRetryable (errAt i) = true) →
      callWithRetry op 5 = Except.error (errAt 4)) ∧
    (∀ (k : Nat) (e : NotionError), k ≤ 4 →
      (∀ i, i < k → ∃ e2, op i = Except.error e2 ∧ isRetryable e2 = true) →
      op k = Except.error e → isRetryable e = false →
      callWithRetry op 5 = Except.error e) := by
  refine ⟨?_, ?_, ?_⟩
  · intro k v hk hfail hok
    have := callWithRetryGo_success op 5 k 0 v (by omega)
      (fun i h1 h2 => hfail i (by omega)) (by simpa using hok)
    exact this
  · intro errAt hfail
    have := callWithRetryGo_exhausted op 5 errAt 0 (by omega)
      (fun i h1 h2 => hfail i h2)
    simpa using this
  · intro k e hk hfail herr hfatal
    have := callWithRetryGo_fatal op 5 k 0 e (by omega)
      (fun i h1 h2 => hfail i (by omega)) (by simpa using herr) hfatal
    exact this

/-- Witness for C3 at concrete operations: two rate-limit failures then a
success yields the success; five straight 502 failures rethrow the last
error; an immediate 404-class error is rethrown at once. -/
theorem c3_callWithRetry_contract_witness :
    callWithRetry (fun i => if i < 2
        then Except.error ⟨some "rate_limited", none⟩
        else Except.ok 42) 5 = Except.ok (some 42) ∧
    callWithRetry (fun _ => (Except.error ⟨none, some 502⟩ : Except NotionError Nat)) 5 =
      Except.error ⟨none, some 502⟩ ∧
    callWithRetry (fun _ => (Except.error ⟨none, some 404⟩ : Except NotionError Nat)) 5 =
      Except.error ⟨none, some 404⟩ := by
  refine ⟨?_, ?_, ?_⟩
  · exact (c3_callWithRetry_contract _).1 2 42 (by omega)
      (fun i hi => ⟨⟨some "rate_limited", none⟩, by simp [hi], by decide⟩)
      (by norm_num)
  · exact (c3_callWithRetry_contract _).2.1 (fun _ => ⟨none, some 502⟩)
      (fun i _ => ⟨rfl, by show isRetryable ⟨none, some 502⟩ = true; decide⟩)
  · exact (c3_callWithRetry_contract _).2.2 0 ⟨none, some 404⟩ (by omega)
      (fun i hi => absurd hi (by omega)) rfl (by decide)

/-! ## Lemmas about whitespace collapsing and trimming -/

/-- The head of the collapsed list of a nonempty list: the first character,
turned into a space when it is whitespace. -/
theorem collapseWs_head (c : Char) (t : List Char) :
    (collapseWs (c :: t)).head? = some (if isWsChar c then ' ' else c) := by
  induction t generalizing c with
  | nil => by_cases h : isWsChar c <;> simp [collapseWs, h]
  | cons c2 rest ih =>
    simp only [collapseWs]
    by_cases h1 : isWsChar c
    · by_cases h2 : isWsChar c2
      · rw [if_pos (by simp [h1, h2])]
        rw [ih c2]
        simp [h1, h2]
      · rw [if_neg (by simp [h2])]
        simp
    · rw [if_neg (by simp [h1])]
      simp

/-- Every character of the collapsed list is a space or came from the
input. -/
theorem collapseWs_mem (l : List Char) (c : Char) (h : c ∈ collapseWs l) :
    c = ' ' ∨ c ∈ l := by
  induction l with
  | nil => simp [collapseWs] at h
  | cons c1 rest ih =>
    cases rest with
    | nil =>
      simp only [collapseWs] at h
      by_cases h1 : isWsChar c1
      · simp [h1] at h; exact Or.inl h
      · simp [h1] at h; subst h; exact Or.inr (by simp)
    | cons c2 rest2 =>
      simp only [collapseWs] at h
      by_cases h12 : isWsChar c1 && isWsChar c2
      · rw [if_pos h12] at h
        rcases ih h with h | h
        · exact Or.inl h
        · exact Or.inr (List.mem_cons_of_mem _ h)
      · rw [if_neg h12] at h
        rcases List.mem_cons.mp h with h | h
        · subst h
          by_cases h1 : isWsChar c1
          · simp [h1]
          · simp [h1]
        · rcases ih h with h | h
          · exact Or.inl h
          · exact Or.inr (List.mem_cons_of_mem _ h)

/-- Every whitespace character of the collapsed list is a plain space. -/
theorem collapseWs_ws_is_space (l : List Char) (c : Char)
    (h : c ∈ collapseWs l) (hws : isWsChar c = true) : c = ' ' := by
  induction l with
  | nil => simp [collapseWs] at h
  | cons c1 rest ih =>
    cases rest with
    | nil =>
      simp only [collapseWs] at h
      by_cases h1 : isWsChar c1
      · simp [h1] at h; exact h
      · simp [h1] at h; subst h; simp [h1] at hws
    | cons c2 rest2 =>
      simp only [collapseWs] at h
      by_cases h12 : isWsChar c1 && isWsChar c2
      · rw [if_pos h12] at h
        exact ih h
      · rw [if_neg h12] at h
        rcases List.mem_cons.mp h with h | h
        · subst h
          by_cases h1 : isWsChar c1
          · simp [h1]
          · simp [h1] at hws
        · exact ih h

/-- No two adjacent characters of the collapsed list are both whitespace. -/
theorem collapseWs_chain (l : List Char) :
    List.Chain' (fun a b => isWsChar a = false ∨ isWsChar b = false)
      (collapseWs l) := by
  induction l with
  | nil => simp [collapseWs]
  | cons c1 rest ih =>
    cases rest with
    | nil =>
      by_cases h1 : isWsChar c1 <;> simp [collapseWs, h1]
    | cons c2 rest2 =>
      simp only [collapseWs]
      by_cases h12 : isWsChar c1 && isWsChar c2
      · rw [if_pos h12]; exact ih
      · rw [if_neg h12]
        have hh := collapseWs_head c2 rest2
        apply List.chain'_cons'.mpr
        refine ⟨?_, ih⟩
        intro y hy
        rw [hh] at hy
        cases hy
        by_cases h1 : isWsChar c1
        · have h2 : isWsChar c2 = false := by
            cases hc2 : isWsChar c2
            · rfl
            · exact absurd (by simp [h1, hc2]) h12
          simp [h1, h2]
        · simp [h1]

/-- The head of `dropWhile p` does not satisfy `p`. -/
theorem dropWhile_head_not (p : Char → Bool) (l : List Char) (a : Char)
    (h : (l.dropWhile p).head? = some a) : p a = false := by
  induction l with
  | nil => simp [List.dropWhile] at h
  | cons c t ih =>
    by_cases hc : p c
    · rw [List.dropWhile_cons_of_pos hc] at h
      exact ih h
    · rw [List.dropWhile_cons_of_neg hc] at h
      simp at h
      subst h
      simpa using hc

/-- `dropWhile` keeps the last element of a list when its result is
nonempty. -/
theorem dropWhile_getLast? (p : Char → Bool) (l : List Char)
    (h : l.dropWhile p ≠ []) : (l.dropWhile p).getLast? = l.getLast? := by
  induction l with
  | nil => simp [List.dropWhile] at h
  | cons c t ih =>
    by_cases hc : p c
    · rw [List.dropWhile_cons_of_pos hc] at h ⊢
      cases t with
      | nil => simp [List.dropWhile] at h
      | cons x xs => rw [ih h, List.getLast?_cons_cons]
    · rw [List.dropWhile_cons_of_neg hc]

/-- Membership passes from `trimWs l` back to `l`. -/
theorem trimWs_mem (l : List Char) (c : Char) (h : c ∈ trimWs l) : c ∈ l := by
  simp only [trimWs, List.mem_reverse] at h
  have h1 := (List.dropWhile_suffix isWsChar).subset h
  rw [List.mem_reverse] at h1
  exact (List.dropWhile_suffix isWsChar).subset h1

/-- Trimming preserves the absence of adjacent whitespace pairs. -/
theorem trimWs_chain (l : List Char)
    (h : List.Chain' (fun a b => isWsChar a = false ∨ isWsChar b = false) l) :
    List.Chain' (fun a b => isWsChar a = false ∨ isWsChar b = false)
      (trimWs l) := by
  have h1 : List.Chain' (fun a b => isWsChar a = false ∨ isWsChar b = false)
      (l.dropWhile isWsChar) :=
    List.Chain'.suffix h (List.dropWhile_suffix isWsChar)
  have h2 : List.Chain' (fun a b => isWsChar a = false ∨ isWsChar b = false)
      (l.dropWhile isWsChar).reverse :=
    List.chain'_reverse.mpr (h1.imp fun a b hab => Or.symm hab)
  have h3 : List.Chain' (fun a b => isWsChar a = false ∨ isWsChar b = false)
      ((l.dropWhile isWsChar).reverse.dropWhile isWsChar) :=
    List.Chain'.suffix h2 (List.dropWhile_suffix isWsChar)
  exact List.chain'_reverse.mpr (h3.imp fun a b hab => Or.symm hab)

/-- The first character of a trimmed list is not whitespace. -/
theorem trimWs_head (l : List Char) (c : Char)
    (h : (trimWs l).head? = some c) : isWsChar c = false := by
  simp only [trimWs] at h
  rw [List.head?_reverse] at h
  have hne : (l.dropWhile isWsChar).reverse.dropWhile isWsChar ≠ [] := by
    intro he; rw [he] at h; simp at h
  rw [dropWhile_getLast? _ _ hne] at h
  rw [List.getLast?_reverse] at h
  exact dropWhile_head_not _ _ _ h

/-- The last character of a trimmed list is not whitespace. -/
theorem trimWs_getLast (l : List Char) (c : Char)
    (h : (trimWs l).getLast? = some c) : isWsChar c = false := by
  simp only [trimWs] at h
  rw [List.getLast?_reverse] at h
  exact dropWhile_head_not _ _ _ h

/-- Collapsing a list of whitespace characters yields nothing or a single
space. -/
theorem collapseWs_all_ws (l : List Char) (h : ∀ c ∈ l, isWsChar c = true) :
    collapseWs l = [] ∨ collapseWs l = [' '] := by
  induction l with
  | nil => exact Or.inl rfl
  | cons c1 rest ih =>
    cases rest with
    | nil => simp [collapseWs, h c1 (by simp)]
    | cons c2 rest2 =>
      have h1 := h c1 (by simp)
      have h2 := h c2 (by simp)
      simp only [collapseWs, h1, h2, Bool.and_self, if_pos]
      exact ih fun c hc => h c (List.mem_cons_of_mem _ hc)

/-- The head survives `take 200`. -/
theorem take200_head (l : List Char) (c : Char)
    (h : (l.take 200).head? = some c) : l.head? = some c := by
  cases l with
  | nil => simp at h
  | cons a as =>
    rw [show (200 : Nat) = 199 + 1 from rfl, List.take_succ_cons] at h
    simpa using h

/-- C10 counterexample: the claim asserts the result never ends in
whitespace, but a title whose 200-character truncation point falls just
after a space (here 199 letters, a space, then a letter) produces a result
ending in a space. -/
theorem c10_generateSafeFilename_counterexample :
    String.mk (List.replicate 199 'a' ++ [' ', 'b']) ≠ "" ∧
    (generateSafeFilename
      (some (String.mk (List.replicate 199 'a' ++ [' ', 'b'])))).data.getLast?
      = some ' ' ∧
    isWsChar ' ' = true := by decide

/-- A `Chain'` of non-adjacent whitespace gives the executable
`noAdjacentWs`. -/
theorem noAdjacentWs_of_chain (l : List Char)
    (h : List.Chain' (fun a b => isWsChar a = false ∨ isWsChar b = false) l) :
    noAdjacentWs l = true := by
  induction l with
  | nil => rfl
  | cons c1 rest ih =>
    cases rest with
    | nil => rfl
    | cons c2 rest2 =>
      rw [List.chain'_cons] at h
      simp only [noAdjacentWs, Bool.and_eq_true]
      refine ⟨?_, ih h.2⟩
      rcases h.1 with h1 | h1 <;> simp [h1]

/-- C10 (amended): `generateSafeFilename` yields at most 200 characters,
none of them invalid filename characters, with no leading whitespace, no
two adjacent whitespace characters, every whitespace being a plain space;
a falsy title yields `untitled`; absence of trailing whitespace holds
whenever the sanitized title fits in the 200-character cap (the truncation
alone can leave a trailing space); a non-empty title of only stripped
characters and whitespace yields the empty string (so the page file is
named `.md`). -/
theorem c10_generateSafeFilename_amended (title : Option String) :
    (generateSafeFilename title).data.length ≤ 200 ∧
    (∀ c ∈ (generateSafeFilename title).data, isInvalidFilenameChar c = false) ∧
    headNotWs (generateSafeFilename title).data = true ∧
    noAdjacentWs (generateSafeFilename title).data = true ∧
    (∀ c ∈ (generateSafeFilename title).data, isWsChar c = true → c = ' ') ∧
    ((title = none ∨ title = some "") →
      generateSafeFilename title = "untitled") ∧
    (∀ t, title = some t → (sanitizedTitle t).length ≤ 200 →
      lastNotWs (generateSafeFilename title).data = true) ∧
    (∀ t, title = some t → t ≠ "" →
      (∀ c ∈ t.data, isInvalidFilenameChar c = true ∨ isWsChar c = true) →
      generateSafeFilename title = "") := by
  cases title with
  | none =>
    refine ⟨by decide, by decide, by decide, by decide, by decide,
      fun _ => rfl, ?_, ?_⟩
    · intro t h; exact absurd h (by simp)
    · intro t h; exact absurd h (by simp)
  | some t =>
    by_cases ht : t = ""
    · subst ht
      refine ⟨by decide, by decide, by decide, by decide, by decide,
        fun _ => rfl, ?_, ?_⟩
      · intro t2 h2 hlen
        decide
      · intro t2 h2 hne _
        have ht2 : t2 = "" := by simpa using h2.symm
        exact absurd ht2 hne
    · have hdata : (generateSafeFilename (some t)).data =
          (sanitizedTitle t).take 200 := by
        simp [generateSafeFilename, ht]
      refine ⟨?_, ?_, ?_, ?_, ?_, ?_, ?_, ?_⟩
      · rw [hdata]
        simp only [List.length_take]
        exact Nat.min_le_left 200 (sanitizedTitle t).length
      · intro c hc
        rw [hdata] at hc
        have h1 : c ∈ sanitizedTitle t := List.mem_of_mem_take hc
        have h2 : c ∈ collapseWs (t.data.filter
            (fun ch => !isInvalidFilenameChar ch)) :=
          trimWs_mem _ _ h1
        rcases collapseWs_mem _ _ h2 with h3 | h3
        · subst h3; decide
        · have := List.of_mem_filter h3
          simpa using this
      · rw [headNotWs, hdata]
        cases hh : ((sanitizedTitle t).take 200).head? with
        | none => rfl
        | some c =>
          have := trimWs_head _ _ (take200_head _ _ hh)
          simp [this]
      · rw [hdata]
        exact noAdjacentWs_of_chain _
          (List.Chain'.take (trimWs_chain _ (collapseWs_chain _)) 200)
      · intro c hc hws
        rw [hdata] at hc
        have h1 : c ∈ sanitizedTitle t := List.mem_of_mem_take hc
        exact collapseWs_ws_is_space _ _ (trimWs_mem _ _ h1) hws
      · intro h
        rcases h with h | h
        · exact absurd h (by simp)
        · exact absurd (by simpa using h) ht
      · intro t2 h2 hlen
        injection h2 with h2e
        subst h2e
        unfold lastNotWs
        rw [hdata, List.take_of_length_le hlen]
        cases hh : (sanitizedTitle t).getLast? with
        | none => rfl
        | some c =>
          have := trimWs_getLast _ _ hh
          simp [this]
      · intro t2 h2 hne hall
        injection h2 with h2e
        subst h2e
        have hws : ∀ c ∈ t.data.filter (fun ch => !isInvalidFilenameChar ch),
            isWsChar c = true := by
          intro c hc
          have hmem := List.mem_of_mem_filter hc
          have hkeep := List.of_mem_filter hc
          rcases hall c hmem with h | h
          · simp [h] at hkeep
          · exact h
        have hcol := collapseWs_all_ws _ hws
        have hsan : sanitizedTitle t = [] := by
          rcases hcol with h | h <;> simp [sanitizedTitle, h] <;> decide
        simp [generateSafeFilename, ht, hsan]

/-- Witness for C10 (amended) at concrete inputs: an absent title yields
`untitled`, and a title of only question marks yields the empty string. -/
theorem c10_generateSafeFilename_amended_witness :
    generateSafeFilename none = "untitled" ∧
    generateSafeFilename (some "???") = "" :=
  ⟨(c10_generateSafeFilename_amended none).2.2.2.2.2.1 (Or.inl rfl),
    (c10_generateSafeFilename_amended (some "???")).2.2.2.2.2.2.2 "???" rfl
      (by decide) (by decide)⟩

/-! ## Lemmas about `cleanupOrphanedFiles` -/

/-- The remaining files after cleanup are a subset of the original files. -/
theorem cleanup_files_subset (pages : List (String × PageInfo))
    (cur fs : List String) :
    ∀ q ∈ (cleanupOrphanedFiles pages cur fs).2.1, q ∈ fs := by
  induction pages generalizing fs with
  | nil => intro q hq; exact hq
  | cons x rest ih =>
    obtain ⟨pid, info⟩ := x
    intro q hq
    simp only [cleanupOrphanedFiles] at hq
    by_cases hc : cur.contains pid
    · rw [if_pos hc] at hq
      exact ih fs q hq
    · rw [if_neg hc] at hq
      by_cases hd : (optTruthy info.filePath &&
          fs.contains (info.filePath.getD "")) = true
      · rw [if_pos hd] at hq
        exact List.mem_of_mem_erase (ih (fs.erase (info.filePath.getD "")) q hq)
      · rw [if_neg hd] at hq
        exact ih fs q hq

/-- Cleanup keeps exactly the entries whose id is still current, in
order and unchanged. -/
theorem cleanup_kept (pages : List (String × PageInfo)) (cur fs : List String) :
    (cleanupOrphanedFiles pages cur fs).1 =
      pages.filter fun x => cur.contains x.1 := by
  induction pages generalizing fs with
  | nil => rfl
  | cons x rest ih =>
    obtain ⟨pid, info⟩ := x
    simp only [cleanupOrphanedFiles]
    by_cases hc : cur.contains pid
    · rw [if_pos hc]
      simp only [List.filter_cons, hc, if_pos]
      rw [ih fs]
    · rw [if_neg hc]
      by_cases hd : (optTruthy info.filePath &&
          fs.contains (info.filePath.getD "")) = true
      · rw [if_pos hd]
        simp only [List.filter_cons, hc]
        simpa using ih (fs.erase (info.filePath.getD ""))
      · rw [if_neg hd]
        simp only [List.filter_cons, hc]
        simpa using ih fs

/-- Two booleans agreeing as propositions are equal. -/
theorem bool_eq_of_iff {a b : Bool} (h : a = true ↔ b = true) : a = b := by
  cases a <;> cases b <;> simp_all

/-- `contains` is membership (strings use a lawful `BEq`). -/
theorem contains_true_iff (l : List String) (a : String) :
    l.contains a = true ↔ a ∈ l := by simp

/-- Erasing one path does not affect `contains` for a different path. -/
theorem erase_contains_of_ne (fs : List String) (p q : String) (h : q ≠ p) :
    (fs.erase p).contains q = fs.contains q := by
  apply bool_eq_of_iff
  rw [contains_true_iff, contains_true_iff]
  exact List.mem_erase_of_ne h

/-- Unfolding of `orphanTruthyPaths` on a cons cell. -/
theorem orphanTruthyPaths_cons (pid : String) (info : PageInfo)
    (rest : List (String × PageInfo)) (cur : List String) :
    orphanTruthyPaths ((pid, info) :: rest) cur =
      if !cur.contains pid && optTruthy info.filePath then
        info.filePath.getD "" :: orphanTruthyPaths rest cur
      else orphanTruthyPaths rest cur := by
  simp only [orphanTruthyPaths, List.filter_cons]
  by_cases h : (!cur.contains pid && optTruthy info.filePath) = true
  · rw [if_pos h, List.map_cons, if_pos h]
  · rw [if_neg h, if_neg h]

/-- Under distinct existing files and distinct orphan paths, the returned
counter is the number of orphaned entries whose truthy recorded file
existed in the original file list. -/
theorem cleanup_count (pages : List (String × PageInfo)) (cur : List String) :
    ∀ fs : List String, fs.Nodup → (orphanTruthyPaths pages cur).Nodup →
    (cleanupOrphanedFiles pages cur fs).2.2 =
      (pages.filter (orphanDeleted cur fs)).length := by
  induction pages with
  | nil => intro fs _ _; rfl
  | cons x rest ih =>
    obtain ⟨pid, info⟩ := x
    intro fs hfs hp
    rw [orphanTruthyPaths_cons] at hp
    simp only [cleanupOrphanedFiles]
    by_cases hc : cur.contains pid = true
    · rw [if_pos hc]
      have hcond : (!cur.contains pid && optTruthy info.filePath) = false := by
        rw [hc]; rfl
      rw [hcond] at hp
      simp only [Bool.false_eq_true, if_false] at hp
      have hod : ¬ orphanDeleted cur fs (pid, info) = true := by
        simp only [orphanDeleted]; rw [hc]; simp
      rw [List.filter_cons_of_neg hod]
      exact ih fs hfs hp
    · have hcne : cur.contains pid = false := by
        cases h : cur.contains pid
        · rfl
        · exact absurd h hc
      rw [if_neg hc]
      by_cases htr : optTruthy info.filePath = true
      · have hcond : (!cur.contains pid && optTruthy info.filePath) = true := by
          rw [hcne, htr]; rfl
        rw [hcond, if_pos rfl] at hp
        have hp2 := List.Nodup.of_cons hp
        have hnotin : info.filePath.getD "" ∉ orphanTruthyPaths rest cur :=
          (List.nodup_cons.mp hp).1
        by_cases hmem : fs.contains (info.filePath.getD "") = true
        · rw [if_pos (by rw [htr, hmem]; rfl)]
          have hfs2 : (fs.erase (info.filePath.getD "")).Nodup := hfs.erase _
          have hcongr : rest.filter (orphanDeleted cur
              (fs.erase (info.filePath.getD ""))) =
              rest.filter (orphanDeleted cur fs) := by
            apply List.filter_congr
            intro y hy
            by_cases ho : (!cur.contains y.1 && optTruthy y.2.filePath) = true
            · have hne : y.2.filePath.getD "" ≠ info.filePath.getD "" := by
                intro he
                apply hnotin
                rw [← he]
                exact List.mem_map_of_mem _ (List.mem_filter.mpr ⟨hy, ho⟩)
              simp only [orphanDeleted, Bool.and_assoc]
              rw [erase_contains_of_ne fs (info.filePath.getD "")
                (y.2.filePath.getD "") hne]
            · have ho2 : (!cur.contains y.1 && optTruthy y.2.filePath) = false := by
                cases h : (!cur.contains y.1 && optTruthy y.2.filePath)
                · rfl
                · exact absurd h ho
              simp only [orphanDeleted, Bool.and_assoc] at ho2 ⊢
              rcases Bool.and_eq_false_iff.mp ho2 with h | h
              · rw [h, Bool.false_and, Bool.false_and]
              · rw [h]; simp
          have hod : orphanDeleted cur fs (pid, info) = true := by
            simp only [orphanDeleted]
            rw [hcne, htr, hmem]
            rfl
          rw [List.filter_cons_of_pos hod, ih _ hfs2 hp2, hcongr,
            List.length_cons]
        · have hmemf : fs.contains (info.filePath.getD "") = false := by
            cases h : fs.contains (info.filePath.getD "")
            · rfl
            · exact absurd h hmem
          rw [if_neg (by rw [htr, hmemf]; simp)]
          have hod : ¬ orphanDeleted cur fs (pid, info) = true := by
            simp only [orphanDeleted]; rw [hmemf]; simp
          rw [List.filter_cons_of_neg hod]
          exact ih fs hfs hp2
      · have htrf : optTruthy info.filePath = false := by
          cases h : optTruthy info.filePath
          · rfl
          · exact absurd h htr
        have hcond : (!cur.contains pid && optTruthy info.filePath) = false := by
          rw [htrf]; simp
        rw [hcond] at hp
        simp only [Bool.false_eq_true, if_false] at hp
        rw [if_neg (by rw [htrf]; simp)]
        have hod : ¬ orphanDeleted cur fs (pid, info) = true := by
          simp only [orphanDeleted]; rw [htrf]; simp
        rw [List.filter_cons_of_neg hod]
        exact ih fs hfs hp

/-- After cleanup, the recorded (non-empty) file of every orphaned entry is
no longer among the remaining files: it was deleted, or it was already
missing and stays missing. -/
theorem cleanup_file_gone (pages : List (String × PageInfo))
    (cur : List String) :
    ∀ fs : List String, fs.Nodup →
    ∀ pid info p, (pid, info) ∈ pages → cur.contains pid = false →
      info.filePath = some p → p ≠ "" →
      p ∉ (cleanupOrphanedFiles pages cur fs).2.1 := by
  induction pages with
  | nil => intro fs _ pid info p hm; simp at hm
  | cons x rest ih =>
    obtain ⟨qid, qinfo⟩ := x
    intro fs hfs pid info p hm hcur hfp hpne
    rcases List.mem_cons.mp hm with heq | hm2
    · have h1 : pid = qid := congrArg Prod.fst heq
      have h2 : info = qinfo := congrArg Prod.snd heq
      subst h1; subst h2
      simp only [cleanupOrphanedFiles]
      rw [if_neg (by rw [hcur]; simp)]
      have htr : optTruthy info.filePath = true := by
        rw [hfp]; simpa [optTruthy] using hpne
      have hgd : info.filePath.getD "" = p := by rw [hfp]; rfl
      by_cases hmem : fs.contains p = true
      · rw [if_pos (by rw [htr, hgd, hmem]; rfl)]
        intro hin
        have hsub := cleanup_files_subset rest cur
          (fs.erase (info.filePath.getD "")) p hin
        rw [hgd] at hsub
        exact absurd ((hfs.mem_erase_iff).mp hsub).1 (by simp)
      · have hmemf : fs.contains p = false := by
          cases h : fs.contains p
          · rfl
          · exact absurd h hmem
        rw [if_neg (by rw [hgd, hmemf]; simp)]
        intro hin
        have hsub := cleanup_files_subset rest cur fs p hin
        rw [← contains_true_iff] at hsub
        rw [hsub] at hmemf
        exact absurd hmemf (by simp)
    · simp only [cleanupOrphanedFiles]
      by_cases hc : cur.contains qid = true
      · rw [if_pos hc]
        exact ih fs hfs pid info p hm2 hcur hfp hpne
      · rw [if_neg hc]
        by_cases hd : (optTruthy qinfo.filePath &&
            fs.contains (qinfo.filePath.getD "")) = true
        · rw [if_pos hd]
          exact ih _ (hfs.erase _) pid info p hm2 hcur hfp hpne
        · rw [if_neg hd]
          exact ih fs hfs pid info p hm2 hcur hfp hpne

/-- C7 counterexample: with a single orphaned record whose local file is
already missing, `cleanupOrphanedFiles` removes the record (one removal)
but returns 0, so it does not return the count of removed records. -/
theorem c7_cleanupOrphanedFiles_counterexample :
    (cleanupOrphanedFiles [("a", ⟨"T1", some "A.md", some "A"⟩)] [] []).1
      = [] ∧
    (cleanupOrphanedFiles [("a", ⟨"T1", some "A.md", some "A"⟩)] [] []).2.2
      = 0 := by decide

/-- C7 (amended): `cleanupOrphanedFiles` keeps exactly the records whose id
is still current (in order, unchanged) and removes all others; the recorded
non-empty local file of every orphaned record is absent afterwards (deleted
when present, tolerated when already missing); and the returned count is
the number of orphaned records whose recorded file actually existed and was
deleted, not the number of removed records. -/
theorem c7_cleanupOrphanedFiles_amended (pages : List (String × PageInfo))
    (cur fs : List String) (hfs : fs.Nodup)
    (hpaths : (orphanTruthyPaths pages cur).Nodup) :
    (cleanupOrphanedFiles pages cur fs).1 =
      (pages.filter fun x => cur.contains x.1) ∧
    (∀ pid info p, (pid, info) ∈ pages → cur.contains pid = false →
      info.filePath = some p → p ≠ "" →
      p ∉ (cleanupOrphanedFiles pages cur fs).2.1) ∧
    (cleanupOrphanedFiles pages cur fs).2.2 =
      (pages.filter (orphanDeleted cur fs)).length :=
  ⟨cleanup_kept pages cur fs,
    fun pid info p hm hc hf hp =>
      cleanup_file_gone pages cur fs hfs pid info p hm hc hf hp,
    cleanup_count pages cur fs hfs hpaths⟩

/-- Witness for C7 (amended) at a concrete input: one orphan with an
existing file, one current record; the count equals the number of orphans
whose file existed. -/
theorem c7_cleanupOrphanedFiles_amended_witness :
    (cleanupOrphanedFiles
        [("a", ⟨"T1", some "A.md", some "A"⟩),
          ("b", ⟨"T2", some "B.md", some "B"⟩)]
        ["b"] ["A.md", "B.md"]).2.2 =
      ([("a", (⟨"T1", some "A.md", some "A"⟩ : PageInfo)),
        ("b", ⟨"T2", some "B.md", some "B"⟩)].filter
          (orphanDeleted ["b"] ["A.md", "B.md"])).length :=
  (c7_cleanupOrphanedFiles_amended _ _ _ (by decide) (by decide)).2.2

/-! ## Lemmas about `exportPage` and the export loop -/

/-- A page whose decision is skip leaves everything unchanged and reports
`false`. -/
theorem exportPage_skip (net : Nat → Bool) (time : Nat → Nat)
    (fs : List String) (rd : Option (List String)) (dir : String)
    (p : PageObj) (fetch : Option (List Block)) (writeOk : Bool)
    (st : BackupState) (s : ImgState) (force : Bool)
    (h : needsUpdate fs rd p st force = false) :
    exportPage net time fs rd dir p fetch writeOk st s force =
      (false, st, s) := by
  simp only [exportPage, h]
  rfl

/-- A page whose fetch or write throws reports `false` and leaves the
backup state unchanged. -/
theorem exportPage_error (net : Nat → Bool) (time : Nat → Nat)
    (fs : List String) (rd : Option (List String)) (dir : String)
    (p : PageObj) (fetch : Option (List Block)) (writeOk : Bool)
    (st : BackupState) (s : ImgState) (force : Bool)
    (h : fetch = none ∨ writeOk = false) :
    (exportPage net time fs rd dir p fetch writeOk st s force).1 = false ∧
    (exportPage net time fs rd dir p fetch writeOk st s force).2.1 = st := by
  simp only [exportPage]
  by_cases hn : needsUpdate fs rd p st force
  · simp only [hn, Bool.not_true, Bool.false_eq_true, if_false]
    rcases h with h | h
    · subst h; exact ⟨rfl, rfl⟩
    · cases fetch with
      | none => exact ⟨rfl, rfl⟩
      | some blocks => subst h; simp
  · simp only [Bool.not_eq_true] at hn
    simp only [hn, Bool.not_false, if_true]
    simp

/-- Every page of the loop is processed: the tallies always sum to the
number of pages. -/
theorem exportDatabase_total (net : Nat → Bool) (time : Nat → Nat)
    (fs : List String) (rd : Option (List String)) (dir : String) :
    ∀ (items : List (PageObj × Option (List Block) × Bool))
      (st : BackupState) (s : ImgState) (force : Bool),
    (exportDatabase net time fs rd dir items st s force).1.1 +
      (exportDatabase net time fs rd dir items st s force).1.2 =
        items.length := by
  intro items
  induction items with
  | nil => intro st s force; rfl
  | cons x rest ih =>
    intro st s force
    obtain ⟨p, fetch, w⟩ := x
    simp only [exportDatabase]
    by_cases hr : (exportPage net time fs rd dir p fetch w st s force).1
    · simp only [hr, if_true, List.length_cons]
      have := ih (exportPage net time fs rd dir p fetch w st s force).2.1
        (exportPage net time fs rd dir p fetch w st s force).2.2 force
      omega
    · simp only [hr, Bool.false_eq_true, if_false, List.length_cons]
      have := ih (exportPage net time fs rd dir p fetch w st s force).2.1
        (exportPage net time fs rd dir p fetch w st s force).2.2 force
      omega

/-- C2: the `SyncRecord` is written only after the local write succeeds —
when the block fetch or the file write throws, `exportPage` reports `false`
and returns the backup state exactly as it was (in particular the entry of
every document id is unchanged); and the per-database loop processes every
page regardless (exported + skipped = number of pages). -/
theorem c2_exportPage_atomicity :
    (∀ (net : Nat → Bool) (time : Nat → Nat) (fs : List String)
      (rd : Option (List String)) (dir : String) (p : PageObj)
      (fetch : Option (List Block)) (writeOk : Bool) (st : BackupState)
      (s : ImgState) (force : Bool),
      fetch = none ∨ writeOk = false →
      (exportPage net time fs rd dir p fetch writeOk st s force).1 = false ∧
      (exportPage net time fs rd dir p fetch writeOk st s force).2.1 = st) ∧
    (∀ (net : Nat → Bool) (time : Nat → Nat) (fs : List String)
      (rd : Option (List String)) (dir : String)
      (items : List (PageObj × Option (List Block) × Bool))
      (st : BackupState) (s : ImgState) (force : Bool),
      (exportDatabase net time fs rd dir items st s force).1.1 +
        (exportDatabase net time fs rd dir items st s force).1.2 =
          items.length) :=
  ⟨fun net time fs rd dir p fetch writeOk st s force h =>
      exportPage_error net time fs rd dir p fetch writeOk st s force h,
    fun net time fs rd dir items st s force =>
      exportDatabase_total net time fs rd dir items st s force⟩

/-- Witness for C2 at a concrete input: a throwing fetch leaves the
(nonempty) backup state untouched, and a two-page loop with one failure
still processes both pages. -/
theorem c2_exportPage_atomicity_witness :
    (exportPage (fun _ => true) (fun _ => 0) [] none "db"
        ⟨"p1", "T2", some "A", none⟩ none true
        ⟨none, [("p1", ⟨"T1", some "db/A.md", some "A"⟩)]⟩
        ⟨[], 1, [], 0, [], []⟩ false).2.1 =
      ⟨none, [("p1", ⟨"T1", some "db/A.md", some "A"⟩)]⟩ ∧
    (exportDatabase (fun _ => true) (fun _ => 0) [] none "db"
        [(⟨"p1", "T2", some "A", none⟩, none, true),
          (⟨"p2", "T2", some "B", none⟩, some [], true)]
        ⟨none, []⟩ ⟨[], 1, [], 0, [], []⟩ false).1.1 +
      (exportDatabase (fun _ => true) (fun _ => 0) [] none "db"
        [(⟨"p1", "T2", some "A", none⟩, none, true),
          (⟨"p2", "T2", some "B", none⟩, some [], true)]
        ⟨none, []⟩ ⟨[], 1, [], 0, [], []⟩ false).1.2 = 2 :=
  ⟨(c2_exportPage_atomicity.1 _ _ _ _ _ _ _ _ _ _ _ (Or.inl rfl)).2,
    c2_exportPage_atomicity.2 _ _ _ _ _ _ _ _ _⟩

/-- C9: a failed export returns the same `false` as a genuine skip, and the
loop counts both identically in the skipped tally, so a failure is
indistinguishable from a skip in the returned statistics. -/
theorem c9_failed_counted_as_skipped :
    (∀ (net : Nat → Bool) (time : Nat → Nat) (fs : List String)
      (rd : Option (List String)) (dir : String) (p : PageObj)
      (fetch : Option (List Block)) (writeOk : Bool) (st : BackupState)
      (s : ImgState) (force : Bool),
      needsUpdate fs rd p st force = true →
      fetch = none ∨ writeOk = false →
      (exportPage net time fs rd dir p fetch writeOk st s force).1 = false) ∧
    (∀ (net : Nat → Bool) (time : Nat → Nat) (fs : List String)
      (rd : Option (List String)) (dir : String) (p : PageObj)
      (fetch : Option (List Block)) (writeOk : Bool) (st : BackupState)
      (s : ImgState) (force : Bool),
      needsUpdate fs rd p st force = false →
      (exportPage net time fs rd dir p fetch writeOk st s force).1 = false) ∧
    (∀ (net : Nat → Bool) (time : Nat → Nat) (fs : List String)
      (rd : Option (List String)) (dir : String) (p : PageObj)
      (fetch : Option (List Block)) (writeOk : Bool) (st : BackupState)
      (s : ImgState) (force : Bool),
      (exportPage net time fs rd dir p fetch writeOk st s force).1 = false →
      (exportDatabase net time fs rd dir [(p, fetch, writeOk)] st s force).1 =
        (0, 1)) := by
  refine ⟨?_, ?_, ?_⟩
  · intro net time fs rd dir p fetch writeOk st s force _ h
    exact (exportPage_error net time fs rd dir p fetch writeOk st s force h).1
  · intro net time fs rd dir p fetch writeOk st s force h
    rw [exportPage_skip net time fs rd dir p fetch writeOk st s force h]
  · intro net time fs rd dir p fetch writeOk st s force h
    simp only [exportDatabase, h, Bool.false_eq_true, if_false]

/-- Witness for C9 at a concrete input: a page that needs export but whose
fetch throws is tallied exactly like an unchanged page — both single-page
loops report (0 exported, 1 skipped). -/
theorem c9_failed_counted_as_skipped_witness :
    (exportDatabase (fun _ => true) (fun _ => 0) [] none "db"
        [(⟨"p1", "T2", some "A", none⟩, none, true)]
        ⟨none, []⟩ ⟨[], 1, [], 0, [], []⟩ false).1 = (0, 1) :=
  (c9_failed_counted_as_skipped.2.2 _ _ _ _ _ _ _ _ _ _ _
    ((c9_failed_counted_as_skipped.1 _ _ _ _ _ _ _ _ _ _ _
      (by decide) (Or.inl rfl))))

/-- A page with a matching marker, a truthy recorded path and an existing
file is skipped when the force flag is off. -/
theorem needsUpdate_unchanged_skip (fs : List String)
    (rd : Option (List String)) (page : PageObj) (st : BackupState)
    (info : PageInfo) (fp : String)
    (hlk : lookupA st.pages page.id = some info)
    (hlm : info.lastModified = page.last_edited_time)
    (hfp : info.filePath = some fp) (hne : fp ≠ "")
    (hex : fs.contains fp = true) :
    needsUpdate fs rd page st false = false := by
  simp only [needsUpdate, hlk, Bool.false_eq_true, if_false]
  have hdec : decide (page.last_edited_time ≠ info.lastModified) = false := by
    rw [hlm]
    simp
  simp only [hdec, Bool.not_false, Bool.true_and, hfp]
  have htr : optTruthy (some fp) = true := by simpa [optTruthy] using hne
  simp only [htr, if_true, hex, pageHasMissingImages_false,
    Bool.false_eq_true, if_false, if_true]

/-- C5 counterexample: a workspace where every document is unchanged (one
page, matching marker, file present) but the attachment pool has no image
files: the force flag is set and the second run exports the page instead of
skipping it (1 exported, 0 skipped instead of 0 and 1). -/
theorem c5_idempotence_counterexample :
    computeForce (some []) = true ∧
    (exportDatabase (fun _ => true) (fun _ => 0) ["db/A.md"] (some []) "db"
        [(⟨"p1", "T1", some "A", none⟩, some [], true)]
        ⟨none, [("p1", ⟨"T1", some "db/A.md", some "A"⟩)]⟩
        ⟨[], 1, [], 0, [], []⟩ (computeForce (some []))).1 = (1, 0) := by
  decide

/-- C5 (amended): when the attachment pool is readable and holds at least
one image file (so the force flag stays off), a run over documents that all
have a sync record with matching marker and an existing recorded file
exports zero documents and skips all of them. -/
theorem c5_idempotence_amended (net : Nat → Bool) (time : Nat → Nat)
    (fs files : List String) (dir : String)
    (items : List (PageObj × Option (List Block) × Bool))
    (st : BackupState) (s : ImgState)
    (hpool : files.filter isImageFile ≠ [])
    (hall : ∀ x ∈ items, ∃ info fp,
      lookupA st.pages x.1.id = some info ∧
      info.lastModified = x.1.last_edited_time ∧
      info.filePath = some fp ∧ fp ≠ "" ∧ fs.contains fp = true) :
    (exportDatabase net time fs (some files) dir items st s
      (computeForce (some files))).1 = (0, items.length) := by
  have hforce : computeForce (some files) = false := by
    simp only [computeForce]
    simpa [List.isEmpty_iff] using hpool
  rw [hforce]
  induction items generalizing st s with
  | nil => rfl
  | cons x rest ih =>
    obtain ⟨p, fetch, w⟩ := x
    obtain ⟨info, fp, hlk, hlm, hfp, hne, hex⟩ := hall (p, fetch, w) (by simp)
    have hskip := needsUpdate_unchanged_skip fs (some files) p st info fp
      hlk hlm hfp hne hex
    simp only [exportDatabase,
      exportPage_skip net time fs (some files) dir p fetch w st s false hskip]
    rw [ih st s (fun x hx => hall x (List.mem_cons_of_mem _ hx))]
    simp

/-- Witness for C5 (amended) at a concrete input: a pool with one image
file and one unchanged page — the run exports 0 and skips 1. -/
theorem c5_idempotence_amended_witness :
    (exportDatabase (fun _ => true) (fun _ => 0) ["db/A.md"]
        (some ["image_1_0001.jpg"]) "db"
        [(⟨"p1", "T1", some "A", none⟩, some [], true)]
        ⟨none, [("p1", ⟨"T1", some "db/A.md", some "A"⟩)]⟩
        ⟨[], 1, [], 0, [], []⟩
        (computeForce (some ["image_1_0001.jpg"]))).1 = (0, 1) :=
  c5_idempotence_amended (fun _ => true) (fun _ => 0) ["db/A.md"]
    ["image_1_0001.jpg"] "db"
    [(⟨"p1", "T1", some "A", none⟩, some [], true)]
    ⟨none, [("p1", ⟨"T1", some "db/A.md", some "A"⟩)]⟩
    ⟨[], 1, [], 0, [], []⟩ (by decide)
    (fun x hx => by
      have hx2 : x = (⟨"p1", "T1", some "A", none⟩, some [], true) := by
        simpa using hx
      subst hx2
      exact ⟨⟨"T1", some "db/A.md", some "A"⟩, "db/A.md", rfl, rfl, rfl,
        by decide, by decide⟩)

/-! ## C8: totality of block conversion and child-fetch isolation -/

/-- C8 counterexample: a block whose type tag is the empty string is not
one of the recognized types, yet the `if (block.type)` guard of the
`default` case is falsy, so conversion emits nothing instead of an inert
placeholder comment naming the raw tag. -/
theorem c8_block_conversion_counterexample :
    (convData (fun _ => true) (fun _ => 0) ⟨[], 1, [], 0, [], []⟩
      (BlockData.unsupported (some ""))).2 = "" := by decide

/-- C8 (amended): conversion is total on a block's own content — a block
with a non-empty unrecognized type tag emits the inert placeholder comment
naming the raw tag and leaves the state unchanged (a block with an absent
or empty tag contributes nothing, still without raising); and a block whose
child fetch throws contributes only its own text (empty continuation for
the subtree) while conversion proceeds with the remaining blocks. -/
theorem c8_block_conversion_amended :
    (∀ (net : Nat → Bool) (time : Nat → Nat) (s : ImgState) (ty : String),
      ty ≠ "" →
      convData net time s (BlockData.unsupported (some ty)) =
        (s, "<!-- Unsupported block type: " ++ ty ++ " -->\n\n")) ∧
    (∀ (net : Nat → Bool) (time : Nat → Nat) (s : ImgState) (d : BlockData)
      (bs : List Block),
      convBlocks net time s (Block.mk d (some none) :: bs) =
        ((convBlocks net time (convData net time s d).1 bs).1,
          (convData net time s d).2 ++
            (convBlocks net time (convData net time s d).1 bs).2)) := by
  constructor
  · intro net time s ty h
    simp [convData, optTruthy, h]
  · intro net time s d bs
    rw [convBlocks]

/-- Witness for C8 (amended): a `callout` block yields exactly the
placeholder comment, and a divider with a failing child fetch followed by a
second divider yields the two dividers and nothing for the subtree. -/
theorem c8_block_conversion_amended_witness :
    convData (fun _ => true) (fun _ => 0) ⟨[], 1, [], 0, [], []⟩
        (BlockData.unsupported (some "callout")) =
      (⟨[], 1, [], 0, [], []⟩,
        "<!-- Unsupported block type: callout -->\n\n") ∧
    convBlocks (fun _ => true) (fun _ => 0) ⟨[], 1, [], 0, [], []⟩
        [Block.mk BlockData.divider (some none),
          Block.mk BlockData.divider none] =
      ((convBlocks (fun _ => true) (fun _ => 0)
          (convData (fun _ => true) (fun _ => 0) ⟨[], 1, [], 0, [], []⟩
            BlockData.divider).1 [Block.mk BlockData.divider none]).1,
        (convData (fun _ => true) (fun _ => 0) ⟨[], 1, [], 0, [], []⟩
          BlockData.divider).2 ++
          (convBlocks (fun _ => true) (fun _ => 0)
            (convData (fun _ => true) (fun _ => 0) ⟨[], 1, [], 0, [], []⟩
              BlockData.divider).1 [Block.mk BlockData.divider none]).2) :=
  ⟨c8_block_conversion_amended.1 _ _ _ "callout" (by decide),
    c8_block_conversion_amended.2 _ _ _ BlockData.divider
      [Block.mk BlockData.divider none]⟩

/-! ## Synthesized image names are injective in the counter -/

/-- The character of a decimal digit is a digit character. -/
theorem digitChar_isDigit (m : Nat) (h : m < 10) :
    (Char.ofNat (48 + m)).isDigit = true := by
  interval_cases m <;> decide

/-- The code point of a decimal digit character. -/
theorem digitChar_toNat (m : Nat) (h : m < 10) :
    (Char.ofNat (48 + m)).toNat = 48 + m := by
  interval_cases m <;> decide

/-- The fuel of the digit computation is irrelevant once it covers the
number. -/
theorem natToDecAux_fuel_irrel : ∀ (f1 f2 n : Nat), n ≤ f1 → n ≤ f2 →
    natToDecAux f1 n = natToDecAux f2 n := by
  intro f1
  induction f1 using Nat.strong_induction_on with
  | _ f1 ih =>
    intro f2 n h1 h2
    by_cases hn : n < 10
    · cases f1 <;> cases f2 <;> simp only [natToDecAux, if_pos hn]
    · have h10 : 10 ≤ n := by omega
      have hdiv : n / 10 < n := Nat.div_lt_self (by omega) (by omega)
      cases f1 with
      | zero => omega
      | succ f1b =>
        cases f2 with
        | zero => omega
        | succ f2b =>
          simp only [natToDecAux, if_neg hn]
          rw [ih f1b (by omega) f2b (n / 10) (by omega) (by omega)]

/-- The defining recurrence of the decimal representation. -/
theorem natToDec_eq (n : Nat) : natToDec n =
    if n < 10 then [Char.ofNat (48 + n)]
    else natToDec (n / 10) ++ [Char.ofNat (48 + n % 10)] := by
  by_cases hn : n < 10
  · rw [if_pos hn]
    unfold natToDec
    cases n <;> simp only [natToDecAux, if_pos hn]
  · rw [if_neg hn]
    unfold natToDec
    cases n with
    | zero => omega
    | succ m =>
      simp only [natToDecAux, if_neg hn]
      rw [natToDecAux_fuel_irrel m ((m + 1) / 10) ((m + 1) / 10)
        (by have := Nat.div_lt_self (show 0 < m + 1 by omega)
              (show 1 < 10 by omega); omega)
        (Nat.le_refl _)]

/-- Every character of the decimal representation is a digit. -/
theorem natToDec_isDigit (n : Nat) : ∀ c ∈ natToDec n, c.isDigit = true := by
  induction n using Nat.strong_induction_on with
  | _ n ih =>
    rw [natToDec_eq]
    split
    · intro c hc
      rw [List.mem_singleton] at hc
      subst hc
      exact digitChar_isDigit n (by omega)
    · intro c hc
      rcases List.mem_append.mp hc with h | h
      · exact ih (n / 10) (Nat.div_lt_self (by omega) (by omega)) c h
      · rw [List.mem_singleton] at h
        subst h
        exact digitChar_isDigit (n % 10) (Nat.mod_lt _ (by omega))

/-- Decoding the decimal representation recovers the number. -/
theorem decVal_natToDec (n : Nat) : decVal (natToDec n) = n := by
  induction n using Nat.strong_induction_on with
  | _ n ih =>
    rw [natToDec_eq]
    split
    · simp only [decVal, List.foldl]
      rw [digitChar_toNat n (by omega)]
      omega
    · simp only [decVal, List.foldl_append, List.foldl]
      have hpre : List.foldl (fun a c => a * 10 + (c.toNat - 48)) 0
          (natToDec (n / 10)) = n / 10 :=
        ih (n / 10) (Nat.div_lt_self (by omega) (by omega))
      rw [hpre, digitChar_toNat (n % 10) (Nat.mod_lt _ (by omega))]
      have := Nat.div_add_mod n 10
      omega

/-- Decoding the padded counter recovers the counter. -/
theorem decVal_padCounter (n : Nat) : decVal (padCounter n) = n := by
  simp only [padCounter, decVal, List.foldl_append]
  have hzeros : ∀ k, List.foldl (fun a c => a * 10 + (c.toNat - 48)) 0
      (List.replicate k '0') = 0 := by
    intro k
    induction k with
    | zero => rfl
    | succ m ihm => simpa [List.replicate_succ, List.foldl] using ihm
  rw [hzeros]
  exact decVal_natToDec n

/-- Every character of the padded counter is a digit. -/
theorem padCounter_isDigit (n : Nat) : ∀ c ∈ padCounter n, c.isDigit = true := by
  intro c hc
  rcases List.mem_append.mp hc with h | h
  · rw [List.eq_of_mem_replicate h]
    decide
  · exact natToDec_isDigit n c h

/-- Splitting at an underscore separator when neither prefix part contains
an underscore. -/
theorem split_at_underscore :
    ∀ (xs ys as bs : List Char), (∀ c ∈ xs, c ≠ '_') → (∀ c ∈ ys, c ≠ '_') →
    xs ++ '_' :: as = ys ++ '_' :: bs → xs = ys ∧ as = bs := by
  intro xs
  induction xs with
  | nil =>
    intro ys as bs _ hys h
    cases ys with
    | nil => simpa using h
    | cons y yt =>
      rw [List.nil_append, List.cons_append, List.cons.injEq] at h
      exact absurd h.1.symm (hys y (by simp))
  | cons x xt ih =>
    intro ys as bs hxs hys h
    cases ys with
    | nil =>
      rw [List.nil_append, List.cons_append, List.cons.injEq] at h
      exact absurd h.1 (hxs x (by simp))
    | cons y yt =>
      rw [List.cons_append, List.cons_append, List.cons.injEq] at h
      obtain ⟨h1, h2⟩ := h
      obtain ⟨h3, h4⟩ := ih yt as bs (fun c hc => hxs c (by simp [hc]))
        (fun c hc => hys c (by simp [hc])) h2
      exact ⟨by rw [h1, h3], h4⟩

/-- Splitting a digit run followed by a dot-led tail. -/
theorem split_digits_dot :
    ∀ (ds1 ds2 e1 e2 : List Char),
    (∀ c ∈ ds1, c.isDigit = true) → (∀ c ∈ ds2, c.isDigit = true) →
    (∃ t1, e1 = '.' :: t1) → (∃ t2, e2 = '.' :: t2) →
    ds1 ++ e1 = ds2 ++ e2 → ds1 = ds2 ∧ e1 = e2 := by
  intro ds1
  induction ds1 with
  | nil =>
    intro ds2 e1 e2 _ hd2 he1 he2 h
    cases ds2 with
    | nil => simpa using h
    | cons d dt =>
      obtain ⟨t1, ht1⟩ := he1
      rw [List.nil_append, ht1, List.cons_append, List.cons.injEq] at h
      have : d.isDigit = true := hd2 d (by simp)
      rw [← h.1] at this
      exact absurd this (by decide)
  | cons d1 dt1 ih =>
    intro ds2 e1 e2 hd1 hd2 he1 he2 h
    cases ds2 with
    | nil =>
      obtain ⟨t2, ht2⟩ := he2
      rw [List.nil_append, ht2, List.cons_append, List.cons.injEq] at h
      have : d1.isDigit = true := hd1 d1 (by simp)
      rw [h.1] at this
      exact absurd this (by decide)
    | cons d2 dt2 =>
      rw [List.cons_append, List.cons_append, List.cons.injEq] at h
      obtain ⟨h1, h2⟩ := h
      obtain ⟨h3, h4⟩ := ih dt2 e1 e2 (fun c hc => hd1 c (by simp [hc]))
        (fun c hc => hd2 c (by simp [hc])) he1 he2 h2
      exact ⟨by rw [h1, h3], h4⟩

/-- A digit character is not an underscore. -/
theorem isDigit_ne_underscore (c : Char) (h : c.isDigit = true) : c ≠ '_' := by
  intro he
  subst he
  exact absurd h (by decide)

/-- Two synthesized image names with dot-led extensions agree only if their
counters agree: the name determines the counter. -/
theorem mkImageName_inj (t1 c1 t2 c2 : Nat) (e1 e2 : List Char)
    (h1 : ∃ s1, e1 = '.' :: s1) (h2 : ∃ s2, e2 = '.' :: s2)
    (h : mkImageName t1 c1 e1 = mkImageName t2 c2 e2) : c1 = c2 := by
  have key : ∀ (t c : Nat) (e : List Char), (mkImageName t c e).data =
      "image_".data ++ (natToDec t ++ ('_' :: (padCounter c ++ e))) := by
    intro t c e
    show (("image_".data ++ natToDec t) ++ ('_' :: padCounter c) ++ e) = _
    simp [List.append_assoc]
  have hd : "image_".data ++ (natToDec t1 ++ ('_' :: (padCounter c1 ++ e1))) =
      "image_".data ++ (natToDec t2 ++ ('_' :: (padCounter c2 ++ e2))) := by
    rw [← key, ← key, h]
  have hd2 := List.append_cancel_left hd
  obtain ⟨_, hsplit⟩ := split_at_underscore (natToDec t1) (natToDec t2)
    (padCounter c1 ++ e1) (padCounter c2 ++ e2)
    (fun c hc => isDigit_ne_underscore c (natToDec_isDigit t1 c hc))
    (fun c hc => isDigit_ne_underscore c (natToDec_isDigit t2 c hc)) hd2
  obtain ⟨hpad, _⟩ := split_digits_dot (padCounter c1) (padCounter c2) e1 e2
    (padCounter_isDigit c1) (padCounter_isDigit c2) h1 h2 hsplit
  have := congrArg decVal hpad
  rwa [decVal_padCounter, decVal_padCounter] at this

/-- The extension computed by `extnameData` is empty or starts with a
dot. -/
theorem extnameData_dot (p : List Char) :
    extnameData p = [] ∨ ∃ tl, extnameData p = '.' :: tl := by
  unfold extnameData
  cases afterLast '/' p with
  | nil => exact Or.inl rfl
  | cons b0 rest =>
    by_cases hm : '.' ∈ rest
    · refine Or.inr ⟨afterLast '.' rest, ?_⟩
      show (if '.' ∈ rest then '.' :: afterLast '.' rest else []) =
        '.' :: afterLast '.' rest
      rw [if_pos hm]
    · refine Or.inl ?_
      show (if '.' ∈ rest then '.' :: afterLast '.' rest else []) = []
      rw [if_neg hm]

/-- The chosen image extension always starts with a dot. -/
theorem imageExtensionOf_dot (url : String) :
    ∃ tl, imageExtensionOf url = '.' :: tl := by
  unfold imageExtensionOf
  cases urlPathname url with
  | none => exact ⟨"jpg".data, rfl⟩
  | some p =>
    rcases extnameData_dot p with h | ⟨tl, h⟩
    · refine ⟨"jpg".data, ?_⟩
      show (if extnameData p = [] then ".jpg".data else extnameData p) =
        '.' :: "jpg".data
      rw [h, if_pos rfl]
    · refine ⟨tl, ?_⟩
      show (if extnameData p = [] then ".jpg".data else extnameData p) =
        '.' :: tl
      rw [h, if_neg (by simp)]

/-! ## Association-list and trace lemmas -/

/-- A successful lookup survives appending entries. -/
theorem lookupA_append_some {α : Type} (l l2 : List (String × α)) (u : String)
    (n : α) (h : lookupA l u = some n) : lookupA (l ++ l2) u = some n := by
  induction l with
  | nil => simp [lookupA] at h
  | cons x rest ih =>
    obtain ⟨k, v⟩ := x
    simp only [lookupA] at h ⊢
    by_cases hk : k = u
    · rwa [if_pos hk] at h ⊢
    · rw [if_neg hk] at h ⊢
      exact ih h

/-- Appending a binding for an unbound key makes it found. -/
theorem lookupA_append_self {α : Type} (l : List (String × α)) (u : String)
    (v : α) (h : lookupA l u = none) : lookupA (l ++ [(u, v)]) u = some v := by
  induction l with
  | nil => simp [lookupA]
  | cons x rest ih =>
    obtain ⟨k, w⟩ := x
    simp only [lookupA] at h ⊢
    by_cases hk : k = u
    · rw [if_pos hk] at h; exact absurd h (by simp)
    · rw [if_neg hk] at h ⊢
      exact ih h

/-- A found binding is a member of the list. -/
theorem lookupA_mem {α : Type} (l : List (String × α)) (u : String) (n : α)
    (h : lookupA l u = some n) : (u, n) ∈ l := by
  induction l with
  | nil => simp [lookupA] at h
  | cons x rest ih =>
    obtain ⟨k, v⟩ := x
    simp only [lookupA] at h
    by_cases hk : k = u
    · rw [if_pos hk] at h
      subst hk
      simp only [Option.some.injEq] at h
      subst h
      simp
    · rw [if_neg hk] at h
      exact List.mem_cons_of_mem _ (ih h)

/-- A successful attempt of the same URL raises the success count by one. -/
theorem countSucc_append_self (u : String) (log : List (String × Bool)) :
    countSucc u (log ++ [(u, true)]) = countSucc u log + 1 := by
  simp [countSucc, List.filter_append]

/-- An attempt of a different URL leaves the success count unchanged. -/
theorem countSucc_append_other (u u2 : String) (b : Bool)
    (log : List (String × Bool)) (h : u2 ≠ u) :
    countSucc u (log ++ [(u2, b)]) = countSucc u log := by
  simp [countSucc, List.filter_append, beq_eq_false_iff_ne.mpr h]

/-- A failed attempt leaves the success count unchanged. -/
theorem countSucc_append_false (u u2 : String) (log : List (String × Bool)) :
    countSucc u (log ++ [(u2, false)]) = countSucc u log := by
  simp [countSucc, List.filter_append]

/-! ## The image step preserves the run invariant -/

/-- Evolution is reflexive. -/
theorem evolves_refl (s : ImgState) : Evolves s s :=
  ⟨fun _ _ h => h, fun _ h => h, id⟩

/-- Evolution is transitive. -/
theorem evolves_trans {s1 s2 s3 : ImgState} (h1 : Evolves s1 s2)
    (h2 : Evolves s2 s3) : Evolves s1 s3 :=
  ⟨fun u n h => h2.1 u n (h1.1 u n h),
    fun q h => h2.2.1 q (h1.2.1 q h),
    fun h => h2.2.2 (h1.2.2 h)⟩

/-- One image reference evolves the state: cached resolutions and pool
files persist, and the run invariant is preserved. -/
theorem processImage_evolves (net : Nat → Bool) (time : Nat → Nat)
    (s : ImgState) (url : Option String) :
    Evolves s (processImage net time s url).1 := by
  cases url with
  | none => exact evolves_refl s
  | some u =>
    simp only [processImage]
    cases hl : lookupA s.cache u with
    | none =>
      cases hnet : net s.attempt with
      | true =>
        simp only [hnet, eq_self_iff_true, if_true]
        refine ⟨?_, ?_, ?_⟩
        · intro u2 n2 h2
          exact lookupA_append_some _ _ _ _ h2
        · intro q hq
          rw [contains_true_iff] at hq ⊢
          exact List.mem_cons_of_mem _ hq
        · intro hinv
          obtain ⟨h1, h2, h3, h4, h5, h6⟩ := hinv
          obtain ⟨etl, hetl⟩ := imageExtensionOf_dot u
          refine ⟨?_, ?_, ?_, ?_, ?_, ?_⟩
          · intro p hp
            rcases List.mem_append.mp hp with hp | hp
            · obtain ⟨t, c, e, tl, hc, he, hn⟩ := h1 p hp
              refine ⟨t, c, e, tl, ?_, he, hn⟩
              show c < s.counter + 1
              omega
            · rw [List.mem_singleton] at hp
              subst hp
              refine ⟨time s.attempt, s.counter, imageExtensionOf u, etl,
                ?_, hetl, rfl⟩
              show s.counter < s.counter + 1
              omega
          · rw [List.pairwise_append]
            refine ⟨h2, List.pairwise_singleton _ _, ?_⟩
            intro p hp q hq
            rw [List.mem_singleton] at hq
            subst hq
            obtain ⟨t, c, e, tl, hc, he, hn⟩ := h1 p hp
            intro heq
            rw [hn] at heq
            have := mkImageName_inj t c (time s.attempt) s.counter e
              (imageExtensionOf u) ⟨tl, he⟩ ⟨etl, hetl⟩ heq
            omega
          · intro p hp
            rcases List.mem_append.mp hp with hp | hp
            · have := h3 p hp
              rw [contains_true_iff] at this ⊢
              exact List.mem_cons_of_mem _ this
            · rw [List.mem_singleton] at hp
              subst hp
              rw [contains_true_iff]
              simp
          · intro u2 hu2
            have hne : u2 ≠ u := by
              intro he
              subst he
              rw [lookupA_append_self _ _ _ hl] at hu2
              exact absurd hu2 (by simp)
            have hnone : lookupA s.cache u2 = none := by
              cases h : lookupA s.cache u2 with
              | none => rfl
              | some n =>
                rw [lookupA_append_some _ _ _ _ h] at hu2
                exact absurd hu2 (by simp)
            rw [countSucc_append_other u2 u true s.log (fun he => hne he.symm)]
            exact h4 u2 hnone
          · intro u2
            by_cases he : u2 = u
            · subst he
              rw [countSucc_append_self, h4 u2 hl]
            · rw [countSucc_append_other u2 u true s.log
                (fun h2 => he h2.symm)]
              exact h5 u2
          · intro u2 md hm
            rcases List.mem_append.mp hm with hm | hm
            · rcases h6 u2 md hm with h | ⟨n, hn, hmd⟩
              · exact Or.inl h
              · exact Or.inr ⟨n, lookupA_append_some _ _ _ _ hn, hmd⟩
            · rw [List.mem_singleton, Prod.mk.injEq] at hm
              obtain ⟨rfl, rfl⟩ := hm
              exact Or.inr ⟨_, lookupA_append_self _ _ _ hl, rfl⟩
      | false =>
        simp only [hnet, Bool.false_eq_true, if_false]
        refine ⟨fun u2 n2 h2 => h2, ?_, ?_⟩
        · intro q hq
          rw [contains_true_iff] at hq ⊢
          exact List.mem_cons_of_mem _ hq
        · intro hinv
          obtain ⟨h1, h2, h3, h4, h5, h6⟩ := hinv
          refine ⟨h1, h2, ?_, ?_, ?_, ?_⟩
          · intro p hp
            have := h3 p hp
            rw [contains_true_iff] at this ⊢
            exact List.mem_cons_of_mem _ this
          · intro u2 hu2
            rw [countSucc_append_false]
            exact h4 u2 hu2
          · intro u2
            rw [countSucc_append_false]
            exact h5 u2
          · intro u2 md hm
            rcases List.mem_append.mp hm with hm | hm
            · exact h6 u2 md hm
            · rw [List.mem_singleton, Prod.mk.injEq] at hm
              obtain ⟨rfl, rfl⟩ := hm
              exact Or.inl rfl
    | some name =>
      cases hfs : s.fsA.contains name with
      | true =>
        simp only [hfs, eq_self_iff_true, if_true]
        refine ⟨fun u2 n2 h2 => h2, fun q hq => hq, ?_⟩
        intro hinv
        obtain ⟨h1, h2, h3, h4, h5, h6⟩ := hinv
        refine ⟨h1, h2, h3, h4, h5, ?_⟩
        intro u2 md hm
        rcases List.mem_append.mp hm with hm | hm
        · exact h6 u2 md hm
        · rw [List.mem_singleton, Prod.mk.injEq] at hm
          obtain ⟨rfl, rfl⟩ := hm
          exact Or.inr ⟨name, hl, rfl⟩
      | false =>
        simp only [hfs, Bool.false_eq_true, if_false]
        cases hnet : net s.attempt with
        | true =>
          simp only [hnet, eq_self_iff_true, if_true]
          refine ⟨fun u2 n2 h2 => h2, ?_, ?_⟩
          · intro q hq
            rw [contains_true_iff] at hq ⊢
            exact List.mem_cons_of_mem _ hq
          · intro hinv
            have := hinv.2.2.1 (u, name) (lookupA_mem _ _ _ hl)
            rw [hfs] at this
            exact absurd this (by simp)
        | false =>
          simp only [hnet, Bool.false_eq_true, if_false]
          refine ⟨fun u2 n2 h2 => h2, ?_, ?_⟩
          · intro q hq
            rw [contains_true_iff] at hq ⊢
            exact List.mem_cons_of_mem _ hq
          · intro hinv
            have := hinv.2.2.1 (u, name) (lookupA_mem _ _ _ hl)
            rw [hfs] at this
            exact absurd this (by simp)

/-- Every block case evolves the state (only the image case touches it). -/
theorem convData_evolves (net : Nat → Bool) (time : Nat → Nat) (s : ImgState)
    (d : BlockData) : Evolves s (convData net time s d).1 := by
  cases d with
  | image url => exact processImage_evolves net time s url
  | paragraph rich => exact evolves_refl s
  | heading1 rich => exact evolves_refl s
  | heading2 rich => exact evolves_refl s
  | heading3 rich => exact evolves_refl s
  | bulleted rich => exact evolves_refl s
  | numbered rich => exact evolves_refl s
  | todo rich checked => exact evolves_refl s
  | quote rich => exact evolves_refl s
  | codeBlock rich language => exact evolves_refl s
  | divider => exact evolves_refl s
  | embed url => exact evolves_refl s
  | bookmark url => exact evolves_refl s
  | table => exact evolves_refl s
  | unsupported ty => exact evolves_refl s

/-- Converting a block list evolves the state. -/
theorem convBlocks_evolves (net : Nat → Bool) (time : Nat → Nat)
    (s : ImgState) (l : List Block) :
    Evolves s (convBlocks net time s l).1 := by
  induction s, l using convBlocks.induct net time with
  | case1 s =>
    simp only [convBlocks]
    exact evolves_refl s
  | case2 s d bs r1 ih =>
    simp only [convBlocks]
    exact evolves_trans (convData_evolves net time s d) ih
  | case3 s d bs r1 ih =>
    simp only [convBlocks]
    exact evolves_trans (convData_evolves net time s d) ih
  | case4 s d kbs bs r1 r2 ih1 ih1b ih2 =>
    simp only [convBlocks]
    exact evolves_trans (convData_evolves net time s d)
      (evolves_trans ih1 ih2)

/-- Converting a document sequence evolves the state. -/
theorem convDocs_evolves (net : Nat → Bool) (time : Nat → Nat) :
    ∀ (s : ImgState) (docs : List (List Block)),
    Evolves s (convDocs net time s docs).1 := by
  intro s docs
  induction docs generalizing s with
  | nil => exact evolves_refl s
  | cons doc rest ih =>
    simp only [convDocs]
    exact evolves_trans (convBlocks_evolves net time s doc) (ih _)

/-- Converting a concatenation of document sequences threads the state. -/
theorem convDocs_append (net : Nat → Bool) (time : Nat → Nat) :
    ∀ (l1 l2 : List (List Block)) (s : ImgState),
    (convDocs net time s (l1 ++ l2)).1 =
      (convDocs net time (convDocs net time s l1).1 l2).1 := by
  intro l1
  induction l1 with
  | nil => intro l2 s; rfl
  | cons doc rest ih =>
    intro l2 s
    simp only [List.cons_append, convDocs]
    exact ih l2 _

/-- The freshly initialized image state satisfies the run invariant. -/
theorem runInit_cacheInv (rd : Option (List String)) :
    CacheInv (runInit rd).1 :=
  ⟨fun p hp => absurd hp (by simp [runInit]),
    List.Pairwise.nil,
    fun p hp => absurd hp (by simp [runInit]),
    fun u _ => rfl,
    fun u => Nat.zero_le 1,
    fun u md hm => absurd hm (by simp [runInit])⟩

/-- C4: within one run (empty initial cache, shared state across all
documents), the attachment cache is one-to-one — distinct origin URLs never
share a local file name; a URL resolved at any earlier point of the run
still resolves to the same name at the end; every origin URL is
successfully downloaded at most once; and every emitted image reference for
a URL is the failure markdown or the success markdown
`![name](Attachments/name)` of its single cached name. -/
theorem c4_attachment_cache_one_to_one (net : Nat → Bool) (time : Nat → Nat)
    (rd : Option (List String)) (docs : List (List Block)) :
    (∀ p ∈ (convDocs net time (runInit rd).1 docs).1.cache,
      ∀ q ∈ (convDocs net time (runInit rd).1 docs).1.cache,
      p.1 ≠ q.1 → p.2 ≠ q.2) ∧
    (∀ docs1 docs2, docs = docs1 ++ docs2 → ∀ u n,
      lookupA (convDocs net time (runInit rd).1 docs1).1.cache u = some n →
      lookupA (convDocs net time (runInit rd).1 docs).1.cache u = some n) ∧
    (∀ u, countSucc u (convDocs net time (runInit rd).1 docs).1.log ≤ 1) ∧
    (∀ u md, (u, md) ∈ (convDocs net time (runInit rd).1 docs).1.refs →
      md = failMd u ∨ ∃ n,
        lookupA (convDocs net time (runInit rd).1 docs).1.cache u = some n ∧
        md = okMd n) := by
  have hinv : CacheInv (convDocs net time (runInit rd).1 docs).1 :=
    (convDocs_evolves net time (runInit rd).1 docs).2.2 (runInit_cacheInv rd)
  obtain ⟨h1, h2, h3, h4, h5, h6⟩ := hinv
  refine ⟨?_, ?_, fun u => h5 u, h6⟩
  · intro p hp q hq hne
    have hsym : Symmetric (fun (a b : String × String) => a.2 ≠ b.2) :=
      fun a b h he => h he.symm
    exact h2.forall hsym hp hq (fun he => hne (congrArg Prod.fst he))
  · intro docs1 docs2 hdocs u n hl
    subst hdocs
    rw [convDocs_append net time docs1 docs2 (runInit rd).1]
    exact (convDocs_evolves net time
      (convDocs net time (runInit rd).1 docs1).1 docs2).1 u n hl

/-- Witness for C4 at a concrete run: two documents referencing two
distinct origin URLs get distinct synthesized names (via the one-to-one
conjunct at the two concrete cache entries), and the resolution of the
first URL after the first document persists to the end of the run (via the
stability conjunct). -/
theorem c4_attachment_cache_one_to_one_witness :
    "image_7_0001.png" ≠ "image_7_0002.png" ∧
    lookupA (convDocs (fun _ => true) (fun _ => 7) (runInit (some [])).1
        [[Block.mk (BlockData.image (some "https://h/a.png")) none],
          [Block.mk (BlockData.image (some "https://h/b.png")) none]]).1.cache
      "https://h/a.png" = some "image_7_0001.png" := by
  have hm1 : ("https://h/a.png", "image_7_0001.png") ∈
      (convDocs (fun _ => true) (fun _ => 7) (runInit (some [])).1
        [[Block.mk (BlockData.image (some "https://h/a.png")) none],
          [Block.mk (BlockData.image (some "https://h/b.png")) none]]).1.cache := by
    simp only [convDocs, convBlocks]
    decide
  have hm2 : ("https://h/b.png", "image_7_0002.png") ∈
      (convDocs (fun _ => true) (fun _ => 7) (runInit (some [])).1
        [[Block.mk (BlockData.image (some "https://h/a.png")) none],
          [Block.mk (BlockData.image (some "https://h/b.png")) none]]).1.cache := by
    simp only [convDocs, convBlocks]
    decide
  have hl1 : lookupA (convDocs (fun _ => true) (fun _ => 7) (runInit (some [])).1
      [[Block.mk (BlockData.image (some "https://h/a.png")) none]]).1.cache
      "https://h/a.png" = some "image_7_0001.png" := by
    simp only [convDocs, convBlocks]
    decide
  exact ⟨(c4_attachment_cache_one_to_one (fun _ => true) (fun _ => 7)
      (some []) [[Block.mk (BlockData.image (some "https://h/a.png")) none],
        [Block.mk (BlockData.image (some "https://h/b.png")) none]]).1
      _ hm1 _ hm2 (by decide),
    (c4_attachment_cache_one_to_one (fun _ => true) (fun _ => 7)
      (some []) [[Block.mk (BlockData.image (some "https://h/a.png")) none],
        [Block.mk (BlockData.image (some "https://h/b.png")) none]]).2.1
      [[Block.mk (BlockData.image (some "https://h/a.png")) none]]
      [[Block.mk (BlockData.image (some "https://h/b.png")) none]] rfl
      "https://h/a.png" "image_7_0001.png" hl1⟩

/-! ## C6: the run-start state of the attachment cache -/

/-- C6 counterexample: with an attachment pool already holding an image
file, the run still starts with an empty in-memory cache (`new Map()`), and
a reference to an origin URL performs a download attempt instead of being
resolved from a cache rebuilt from the filesystem. -/
theorem c6_cache_counterexample :
    (runInit (some ["image_1_0001.jpg"])).1.cache = [] ∧
    (convBlocks (fun _ => true) (fun _ => 7)
        (runInit (some ["image_1_0001.jpg"])).1
        [Block.mk (BlockData.image (some "https://h/a.png")) none]).1.log =
      [("https://h/a.png", true)] := by
  constructor
  · rfl
  · simp only [convBlocks]
    decide

/-- C6 (amended): at the start of every run the in-memory attachment cache
is created empty — the filesystem scan of the pool determines only the
force-re-materialize flag — and the cache is refreshed as new downloads
occur, so a URL downloaded earlier in the same run is resolved from the
cache with no further download attempt; attachments on disk from earlier
runs are not resolved from the cache. -/
theorem c6_cache_starts_empty_amended :
    (∀ rd : Option (List String),
      (runInit rd).1.cache = [] ∧ (runInit rd).2 = computeForce rd) ∧
    (∀ (net : Nat → Bool) (time : Nat → Nat) (rd : Option (List String))
      (u : String), net 0 = true →
      lookupA (processImage net time (runInit rd).1 (some u)).1.cache u =
        some (mkImageName (time 0) 1 (imageExtensionOf u)) ∧
      (processImage net time
          (processImage net time (runInit rd).1 (some u)).1 (some u)).1.log =
        (processImage net time (runInit rd).1 (some u)).1.log ∧
      (processImage net time
          (processImage net time (runInit rd).1 (some u)).1 (some u)).2 =
        okMd (mkImageName (time 0) 1 (imageExtensionOf u))) := by
  constructor
  · intro rd
    exact ⟨rfl, rfl⟩
  · intro net time rd u hnet
    have hs1 : processImage net time (runInit rd).1 (some u) =
        ({ cache := [(u, mkImageName (time 0) 1 (imageExtensionOf u))]
           counter := 2
           fsA := mkImageName (time 0) 1 (imageExtensionOf u) :: rd.getD []
           attempt := 1
           log := [(u, true)]
           refs := [(u, okMd (mkImageName (time 0) 1 (imageExtensionOf u)))] },
          okMd (mkImageName (time 0) 1 (imageExtensionOf u))) := by
      simp [processImage, runInit, lookupA, hnet]
    rw [hs1]
    refine ⟨by simp [lookupA], ?_, ?_⟩ <;>
      simp [processImage, lookupA]

/-- Witness for C6 (amended) at a concrete input: a nonempty pool still
yields an empty starting cache, and a freshly downloaded URL resolves from
the cache afterwards. -/
theorem c6_cache_starts_empty_amended_witness :
    (runInit (some ["image_1_0001.jpg"])).1.cache = [] ∧
    lookupA (processImage (fun _ => true) (fun _ => 7)
        (runInit (some [])).1 (some "https://h/a.png")).1.cache
        "https://h/a.png" =
      some (mkImageName 7 1 (imageExtensionOf "https://h/a.png")) :=
  ⟨(c6_cache_starts_empty_amended.1 (some ["image_1_0001.jpg"])).1,
    (c6_cache_starts_empty_amended.2 (fun _ => true) (fun _ => 7) (some [])
      "https://h/a.png" rfl).1⟩

end NotionBackup
